import Mathlib

/-!
Verification development for the FARS on-demand image variant server.

The Go sources are shallowly embedded: pure helpers become Lean functions on
`String` / `List Char`, filesystem state becomes an association list from paths
to file data, and the per-request pipeline becomes a pure function that also
records the side effects it would perform.  Machine integers are modelled as
`Int` (Go `int`/`int64`); none of the verified claims depends on overflow.
The target platform is linux, where Go `filepath.ToSlash` and
`filepath.FromSlash` are the identity and the path separator is '/'.
-/

namespace FARS

/-! ## Go path primitives (`path/filepath` on linux) -/

/-- Split a character list on '/' separators, keeping empty segments
(mirrors the separator scanning of Go `path.Clean`). -/
def splitSlash : List Char → List (List Char)
  | [] => [[]]
  | c :: cs =>
    if c = '/' then [] :: splitSlash cs
    else
      match splitSlash cs with
      | [] => [[c]]
      | h :: t => (c :: h) :: t

/-- Path components: split on '/' and drop empty segments.  Runs of
separators and trailing separators disappear, as in Go `path.Clean`. -/
def pathComps (s : List Char) : List (List Char) :=
  (splitSlash s).filter (fun c => !(c = []))

/-- Whether the path is rooted (starts with '/'). -/
def chIsAbs : List Char → Bool
  | c :: _ => c = '/'
  | [] => false

/-- The component-stack pass of Go `path.Clean`: drop ".", pop on ".."
(except that ".." at the root of an absolute path is dropped and ".."
accumulates at the front of a relative path). -/
def cleanGo (abs : Bool) : List (List Char) → List (List Char) → List (List Char)
  | stack, [] => stack.reverse
  | stack, c :: cs =>
    if c = ['.'] then cleanGo abs stack cs
    else if c = ['.', '.'] then
      match stack with
      | [] => if abs then cleanGo abs [] cs else cleanGo abs [['.', '.']] cs
      | t :: rest =>
        if t = ['.', '.'] then cleanGo abs (['.', '.'] :: t :: rest) cs
        else cleanGo abs rest cs
    else cleanGo abs (c :: stack) cs

/-- Interpose '/' between components. -/
def joinComps : List (List Char) → List Char
  | [] => []
  | [c] => c
  | c :: cs => c ++ '/' :: joinComps cs

/-- Rebuild a path string from its root flag and components; the empty
result becomes "/" or "." as in Go `path.Clean`. -/
def renderPath (abs : Bool) (comps : List (List Char)) : List Char :=
  match comps with
  | [] => if abs then ['/'] else ['.']
  | _ => (if abs then ['/'] else []) ++ joinComps comps

/-- Go `filepath.Clean` (linux), on character lists. -/
def cleanChars (s : List Char) : List Char :=
  renderPath (chIsAbs s) (cleanGo (chIsAbs s) [] (pathComps s))

/-- Go `filepath.Clean` (linux). -/
def goClean (s : String) : String := String.mk (cleanChars s.data)

/-- Go `filepath.Join` (linux): drop empty elements, interpose '/',
then `Clean`; all-empty input yields the empty string. -/
def goJoinList (parts : List String) : String :=
  let ne := parts.filter (fun p => !(p = ""))
  if ne.isEmpty then "" else goClean (String.mk (joinComps (ne.map String.data)))

/-- Binary Go `filepath.Join`. -/
def goJoin (a b : String) : String := goJoinList [a, b]

/-- Go `strings.HasPrefix`. -/
def strStartsWith (s p : String) : Bool := p.data.isPrefixOf s.data

/-- Go `strings.TrimPrefix`: remove one leading occurrence of `p` if present. -/
def strTrimPre (s p : String) : String :=
  if p.data.isPrefixOf s.data then String.mk (s.data.drop p.data.length) else s

/-- Go `strings.TrimSuffix`. -/
def strTrimSuffix (s suf : String) : String :=
  if suf.data.isSuffixOf s.data then
    String.mk (s.data.take (s.data.length - suf.data.length))
  else s

/-- Reverse scan collecting the extension for Go `filepath.Ext`:
stop at a path separator, return from the last dot. -/
def extRevGo (acc : List Char) : List Char → List Char
  | [] => []
  | c :: cs => if c = '/' then [] else if c = '.' then '.' :: acc else extRevGo (c :: acc) cs

/-- Go `filepath.Ext`: the suffix of the final path element starting at its
final dot; empty when the final element has no dot. -/
def goExt (s : String) : String := String.mk (extRevGo [] s.data.reverse)

/-- ASCII whitespace (the whitespace actually reaching `TrimSpace` here). -/
def isSpaceChar (c : Char) : Bool :=
  c = ' ' || c = '\t' || c = '\n' || c = '\r' || c = '\x0b' || c = '\x0c'

/-- Go `strings.TrimSpace` (restricted to ASCII whitespace). -/
def strTrimSpace (s : String) : String :=
  String.mk (((s.data.dropWhile isSpaceChar).reverse.dropWhile isSpaceChar).reverse)

/-- Go `strings.ToLower` (ASCII letters, which is all the extensions use). -/
def strToLower (s : String) : String := String.mk (s.data.map Char.toLower)

/-- Decimal digit run to a number; `none` on empty input or a non-digit. -/
def digitsToNat (acc : Nat) : List Char → Option Nat
  | [] => some acc
  | c :: cs => if c.isDigit then digitsToNat (acc * 10 + (c.toNat - 48)) cs else none

/-- Go `strconv.Atoi` (overflow ignored; the claims never involve values
near the int64 boundary). -/
def parseAtoi (s : String) : Option Int :=
  match s.data with
  | [] => none
  | '+' :: rest =>
    if rest.isEmpty then none else (digitsToNat 0 rest).map Int.ofNat
  | '-' :: rest =>
    if rest.isEmpty then none else (digitsToNat 0 rest).map (fun n => -(n : Int))
  | l => (digitsToNat 0 l).map Int.ofNat

/-- Go `strings.SplitN(s, sep, 2)` for a single-character separator:
split at the first occurrence only. -/
def splitFirst (sep : Char) : List Char → List (List Char)
  | [] => [[]]
  | c :: cs =>
    if c = sep then [[], cs]
    else
      match splitFirst sep cs with
      | [] => [[c]]
      | h :: t => (c :: h) :: t

/-- Go `strings.Split(s, sep)` for a single-character separator. -/
def splitAll (sep : Char) : List Char → List (List Char)
  | [] => [[]]
  | c :: cs =>
    if c = sep then [] :: splitAll sep cs
    else
      match splitAll sep cs with
      | [] => [[c]]
      | h :: t => (c :: h) :: t

/-! ## Configuration (`internal/config/config.go`) -/

/-- The configuration fields the verified components read.  A compiled
rewrite rule is embedded as a function returning `some transformed` when the
regex matched (`RewriteRule.Apply` returning `(out, true)`) and `none`
otherwise; the claims quantify over arbitrary rule behaviour. -/
structure Config where
  baseDir : String
  cacheDir : String
  maxWidth : Int
  maxHeight : Int
  ttl : Int
  cleanupInterval : Int
  memoryCacheSize : Int
  maxMemoryChunk : Int
  storageHotCacheSize : Int
  rewrites : List (String → Option String)

/-- `Config.ApplyRewrites`: pass the input through the rules until the first
match; an unmatched rule leaves the target unchanged. -/
def applyRewrites (rules : List (String → Option String)) (input : String) : String :=
  match rules with
  | [] => input
  | r :: rest =>
    match r input with
    | some out => out
    | none => applyRewrites rest input

/-- `Config.ResolvePaths`: trim a leading '/', apply rewrites, lexically
clean, reject "." and traversal, join under `base_dir`.
(`filepath.ToSlash` and `filepath.FromSlash` are the identity on linux.) -/
def resolvePaths (cfg : Config) (relative : String) : Except String (String × String) :=
  let prepared := strTrimPre relative "/"
  let prepared := applyRewrites cfg.rewrites prepared
  let clean := goClean prepared
  if clean = "." then .error "empty target path"
  else if strStartsWith clean "../" || clean = ".." then
    .error "path attempts to escape base directory"
  else .ok (clean, goJoin cfg.baseDir clean)

/-- `formatGeometryPrefix`: each positive side rendered with `strconv.Itoa`,
non-positive sides omitted, and "0x0" when both are omitted. -/
def formatGeometryPrefix (width height : Int) : String :=
  let w := if width > 0 then toString width else ""
  let h := if height > 0 then toString height else ""
  if w = "" && h = "" then "0x0" else w ++ "x" ++ h

/-- `Config.CachePath`: join `cache_dir`, the geometry prefix, and the
cleaned relative path. -/
def cachePathOf (cfg : Config) (width height : Int) (relative : String) : String :=
  goJoinList [cfg.cacheDir, formatGeometryPrefix width height,
    goClean (strTrimPre relative "/")]

/-! ## Geometry parsing (`internal/httpapi/handler.go`) -/

/-- `parseDimension`: blank (after trimming) means 0, otherwise `strconv.Atoi`. -/
def parseDimensionGo (raw : String) : Except String Int :=
  if strTrimSpace raw = "" then .ok 0
  else
    match parseAtoi raw with
    | some v => .ok v
    | none => .error "invalid syntax"

/-- `parseGeometry`: split on the first 'x' into exactly two tokens and
parse each side. -/
def parseGeometryGo (geometry : String) : Except String (Int × Int) :=
  match splitFirst 'x' geometry.data with
  | [wRaw, hRaw] =>
    match parseDimensionGo (String.mk wRaw) with
    | .error e => .error ("invalid width: " ++ e)
    | .ok w =>
      match parseDimensionGo (String.mk hRaw) with
      | .error e => .error ("invalid height: " ++ e)
      | .ok h => .ok (w, h)
  | _ => .error ("invalid geometry " ++ geometry)

/-- `Handler.validateDimensions`: reject negative sides, and positive sides
above the configured maxima; `some msg` is the returned error. -/
def validateDimensions (cfg : Config) (width height : Int) : Option String :=
  if width < 0 || height < 0 then some "dimensions must be non-negative"
  else if width > 0 && width > cfg.maxWidth then some "width exceeds limit"
  else if height > 0 && height > cfg.maxHeight then some "height exceeds limit"
  else none

/-! ## Filesystem model -/

/-- A regular file: payload bytes (abstracted to naturals) and mtime.
A zero mtime plays the role of Go time.Time.IsZero. -/
structure FileData where
  content : List Nat
  mtime : Int
deriving DecidableEq, Repr

/-- The filesystem is an association list from absolute paths to files;
directories are implicit.  The first binding for a path wins. -/
def FS := List (String × FileData)

instance : DecidableEq FS := by unfold FS; infer_instance

def fsStat (fs : FS) (p : String) : Option FileData :=
  (fs.find? (fun e => e.1 = p)).map (fun e => e.2)

def fsErase (fs : FS) (p : String) : FS :=
  fs.filter (fun e => !(e.1 = p))

def fsInsert (fs : FS) (p : String) (d : FileData) : FS :=
  (p, d) :: fsErase fs p

/-! ## Memory LRU tier (`internal/cache/manager.go`, `memoryCache`) -/

structure MemEntry where
  key : String
  payload : List Nat
  size : Int
  modTime : Int
deriving DecidableEq, Repr

/-- The doubly-linked LRU list plus hash table, as a front-is-MRU list with
unique keys. -/
structure MemCache where
  limit : Int
  chunk : Int
  used : Int
  entries : List MemEntry
deriving DecidableEq, Repr

def memFind (c : MemCache) (key : String) : Option MemEntry :=
  c.entries.find? (fun e => e.key = key)

/-- `memoryCache.removeElement` on the entry with this key: unlink, subtract
its size, clamp at zero. -/
def memRemoveElement (c : MemCache) (key : String) : MemCache :=
  match memFind c key with
  | none => c
  | some e =>
    let used := c.used - e.size
    { c with
      entries := c.entries.filter (fun x => !(x.key = key)),
      used := if used < 0 then 0 else used }

/-- `memoryCache.remove`. -/
def memRemove (c : MemCache) (key : String) : MemCache :=
  memRemoveElement c key

/-- One back-eviction step of `enforceLimitLocked`, fueled by the entry
count (each step removes the back entry, so the fuel suffices). -/
def memEnforceGo : Nat → MemCache → MemCache
  | 0, c => c
  | n + 1, c =>
    if c.limit > 0 && c.used > c.limit then
      match c.entries.getLast? with
      | none => c
      | some e => memEnforceGo n (memRemoveElement c e.key)
    else c

def memEnforce (c : MemCache) : MemCache :=
  memEnforceGo c.entries.length c

/-- `memoryCache.store`: skip zero/oversized payloads, evict an existing
binding for the key (without the clamp, as in the source), push to front,
then enforce the byte limit. -/
def memStore (c : MemCache) (key : String) (payload : List Nat) (modTime : Int) : MemCache :=
  if c.limit ≤ 0 then c
  else
    let size : Int := payload.length
    if size = 0 then memRemove c key
    else if c.chunk > 0 && size > c.chunk then c
    else if size > c.limit then c
    else
      let c1 :=
        match memFind c key with
        | none => c
        | some e =>
          { c with
            entries := c.entries.filter (fun x => !(x.key = key)),
            used := c.used - e.size }
      let c2 :=
        { c1 with
          entries := ⟨key, payload, size, modTime⟩ :: c1.entries,
          used := c1.used + size }
      memEnforce c2

/-- `memoryCache.load`: apply the same freshness predicate as `IsFresh`
to the in-memory mtime; a stale entry is unlinked and reported missing,
a fresh one is moved to the front. -/
def memLoad (c : MemCache) (key : String) (originMod ttl now : Int) :
    Option MemEntry × MemCache :=
  if c.limit ≤ 0 then (none, c)
  else
    match memFind c key with
    | none => (none, c)
    | some e =>
      if originMod ≠ 0 && originMod > e.modTime then (none, memRemoveElement c key)
      else if ttl > 0 && now - e.modTime > ttl then (none, memRemoveElement c key)
      else
        (some e, { c with entries := e :: c.entries.filter (fun x => !(x.key = key)) })

/-! ## Hot-set tier (`internal/cache/manager.go`, `hotCache`) -/

structure HotEntry where
  key : String
  size : Int
deriving DecidableEq, Repr

structure HotCache where
  limit : Int
  used : Int
  entries : List HotEntry
deriving DecidableEq, Repr

def hotFind (h : HotCache) (key : String) : Option HotEntry :=
  h.entries.find? (fun e => e.key = key)

/-- The back-eviction loop of `hotCache.enforceLimitLocked`, with the final
clamp of `used` at zero. -/
def hotEnforceGo : Nat → HotCache → HotCache
  | 0, h => h
  | n + 1, h =>
    if h.limit > 0 && h.used > h.limit then
      match h.entries.getLast? with
      | none => h
      | some e =>
        hotEnforceGo n
          { h with
            entries := h.entries.filter (fun x => !(x.key = e.key)),
            used := h.used - e.size }
    else h

def hotEnforce (h : HotCache) : HotCache :=
  let h2 := hotEnforceGo h.entries.length h
  { h2 with used := if h2.used < 0 then 0 else h2.used }

/-- `hotCache.upsertLocked`: refresh size and move to front, or push a new
front entry; then enforce the limit. -/
def hotUpsert (h : HotCache) (key : String) (size : Int) : HotCache :=
  match hotFind h key with
  | some e =>
    hotEnforce
      { h with
        entries := ⟨key, size⟩ :: h.entries.filter (fun x => !(x.key = key)),
        used := h.used + size - e.size }
  | none =>
    hotEnforce
      { h with
        entries := ⟨key, size⟩ :: h.entries,
        used := h.used + size }

/-- `hotCache.mark`. -/
def hotMark (h : HotCache) (key : String) (size : Int) : HotCache :=
  if h.limit ≤ 0 || size ≤ 0 then h else hotUpsert h key size

/-- `hotCache.protect`: true iff the key is present; refresh its size, move
it to the front and enforce the limit. -/
def hotProtect (h : HotCache) (key : String) (size : Int) : Bool × HotCache :=
  if h.limit ≤ 0 || size ≤ 0 then (false, h)
  else
    match hotFind h key with
    | none => (false, h)
    | some e =>
      (true,
        hotEnforce
          { h with
            entries := ⟨key, size⟩ :: h.entries.filter (fun x => !(x.key = key)),
            used := h.used + size - e.size })

/-- `hotCache.remove`. -/
def hotRemove (h : HotCache) (key : String) : HotCache :=
  match hotFind h key with
  | none => h
  | some e =>
    let used := h.used - e.size
    { h with
      entries := h.entries.filter (fun x => !(x.key = key)),
      used := if used < 0 then 0 else used }

/-! ## Cache manager (`internal/cache/manager.go`, `Manager`) -/

/-- The manager's mutable tiers; `none` mirrors a nil tier (disabled). -/
structure Manager where
  memory : Option MemCache
  hot : Option HotCache
deriving DecidableEq, Repr

/-- `Manager.evictMemory`. -/
def evictMemory (m : Manager) (path : String) : Manager :=
  { m with memory := m.memory.map (fun c => memRemove c path) }

/-- `Manager.markHot` (nil hot tier or non-positive size is a no-op). -/
def managerMarkHot (m : Manager) (path : String) (size : Int) : Manager :=
  match m.hot with
  | none => m
  | some h => if size ≤ 0 then m else { m with hot := some (hotMark h path size) }

/-- `Manager.drop`: forget the key in both in-memory tiers. -/
def managerDrop (m : Manager) (path : String) : Manager :=
  { memory := m.memory.map (fun c => memRemove c path),
    hot := m.hot.map (fun h => hotRemove h path) }

/-- `Manager.IsFresh`: stat the cache file, compare the original's mtime and
the TTL; every failing branch evicts the memory-tier entry first. -/
def isFresh (cfg : Config) (fs : FS) (now : Int) (m : Manager) (cachePath : String)
    (orig : Option FileData) : Bool × Manager :=
  match fsStat fs cachePath with
  | none => (false, evictMemory m cachePath)
  | some info =>
    if (match orig with
        | some o => o.mtime ≠ 0 && o.mtime > info.mtime
        | none => false) then
      (false, evictMemory m cachePath)
    else if cfg.ttl > 0 && now - info.mtime > cfg.ttl then
      (false, evictMemory m cachePath)
    else (true, m)

/-- `Manager.Write` on the success path of the model filesystem: write the
temporary sibling, rename it onto the target, then (only when the memory
tier is enabled) store the payload in the LRU and mark the hot-set. -/
def writeCache (fs : FS) (now : Int) (m : Manager) (cachePath : String)
    (payload : List Nat) : FS × Manager :=
  let tmp := cachePath ++ ".tmp"
  let fs1 := fsInsert fs tmp ⟨payload, now⟩
  let fs2 := fsInsert (fsErase fs1 tmp) cachePath ⟨payload, now⟩
  match m.memory with
  | none => (fs2, m)
  | some mc =>
    match fsStat fs2 cachePath with
    | none => (fs2, m)
    | some info =>
      let m1 := { m with memory := some (memStore mc cachePath payload info.mtime) }
      (fs2, managerMarkHot m1 cachePath payload.length)

/-! ## Conditional responses (`internal/httpapi/handler.go`) -/

inductive ImgFormat
  | jpeg
  | png
  | webp
  | avif
deriving DecidableEq, Repr

def contentTypeOf : ImgFormat → String
  | .jpeg => "image/jpeg"
  | .png => "image/png"
  | .webp => "image/webp"
  | .avif => "image/avif"

def extensionToFormat (ext : String) : Option ImgFormat :=
  if ext = ".jpg" || ext = ".jpeg" then some .jpeg
  else if ext = ".png" then some .png
  else if ext = ".webp" then some .webp
  else if ext = ".avif" then some .avif
  else none

/-- An emitted HTTP response: status, headers in emission order, payload. -/
structure Response where
  status : Nat
  headers : List (String × String)
  body : Option (List Nat)
deriving DecidableEq, Repr

def cacheControlImmutable : String :=
  "public, max-age=31536000, immutable, s-maxage=31536000"

/-- `matchETag`: any comma-separated candidate, after trimming, equals the
current ETag; an absent header never matches. -/
def matchETagGo (header etag : String) : Bool :=
  if header = "" then false
  else ((splitAll ',' header.data).map String.mk).any (fun c => strTrimSpace c = etag)

/-- The pure collaborators of `tryServeFromCache`: the payload digest behind
`buildContentETag`, `http.ParseTime`, and the HTTP-date rendering of a UTC
mtime.  The conditional logic under verification treats them as opaque. -/
structure ServeCtx where
  etagOf : List Nat → String
  parseTime : String → Option Int
  fmtTime : Int → String

/-- `Handler.tryServeFromCache`: open and read the cache file (`none` when
the open fails, which the caller treats as not served), honour
`If-None-Match` first, then `If-Modified-Since`, else emit the payload. -/
def tryServeFromCache (ctx : ServeCtx) (fs : FS) (cachePath : String)
    (format : ImgFormat) (inm ims : String) : Option Response :=
  match fsStat fs cachePath with
  | none => none
  | some info =>
    let payload := info.content
    let etag := ctx.etagOf payload
    let modStr := ctx.fmtTime info.mtime
    let notModified : Response :=
      ⟨304,
        [("Cache-Control", cacheControlImmutable), ("ETag", etag),
          ("Last-Modified", modStr)],
        none⟩
    let ok200 : Response :=
      ⟨200,
        [("Content-Type", contentTypeOf format),
          ("Cache-Control", cacheControlImmutable), ("ETag", etag),
          ("Last-Modified", modStr),
          ("Content-Length", toString payload.length)],
        some payload⟩
    if matchETagGo inm etag then some notModified
    else
      match (if ims = "" then none else ctx.parseTime ims) with
      | some t => if info.mtime > t then some ok200 else some notModified
      | none => some ok200

/-! ## Sweeper (`internal/cache/manager.go`, `cleanupOnce`) -/

/-- `isAllowedCacheExt`. -/
def isAllowedCacheExt (path : String) : Bool :=
  let e := strToLower (goExt path)
  e = ".png" || e = ".avif" || e = ".webp" || e = ".jpg"

/-- `splitCachePath` for paths discovered by walking `cacheRoot` (every such
path extends the root, so `filepath.Rel` just strips `cacheRoot ++ "/"`);
the remainder must split into a geometry component and a relative path. -/
def splitCachePath (cacheRoot path : String) : Option (String × String) :=
  if (cacheRoot ++ "/").data.isPrefixOf path.data then
    match splitFirst '/' (path.data.drop (cacheRoot ++ "/").data.length) with
    | [geo, rel] => some (String.mk geo, String.mk rel)
    | _ => none
  else none

/-- `Manager.lookupOriginalInfo`: stat `base_dir/rel`, else retry with the
last extension stripped (when stripping changes the path). -/
def lookupOriginalInfo (fs : FS) (baseDir rel : String) : Option FileData :=
  match fsStat fs (goJoin baseDir rel) with
  | some i => some i
  | none =>
    let trimmed := strTrimSuffix rel (goExt rel)
    if trimmed = rel then none
    else fsStat fs (goJoin baseDir trimmed)

structure SweepStats where
  files : Int
  bytes : Int
  hotPreserved : Int
  hotBytes : Int
deriving DecidableEq, Repr

/-- The sweeper's evolving state: paths already removed from disk, the two
in-memory tiers, and the summary counters. -/
structure SweepState where
  removed : List String
  memory : Option MemCache
  hot : Option HotCache
  stats : SweepStats
deriving DecidableEq, Repr

/-- `Manager.shouldKeepHot`: nil hot tier or non-positive size never
protects; otherwise `protect` decides and the retention counters grow. -/
def shouldKeepHot (st : SweepState) (path : String) (size : Int) :
    Bool × SweepState :=
  match st.hot with
  | none => (false, st)
  | some h =>
    if size ≤ 0 then (false, st)
    else
      match hotProtect h path size with
      | (false, h2) => (false, { st with hot := some h2 })
      | (true, h2) =>
        (true,
          { st with
            hot := some h2,
            stats :=
              { st.stats with
                hotPreserved := st.stats.hotPreserved + 1,
                hotBytes := st.stats.hotBytes + size } })

/-- `Manager.removeCacheFile` on a file the walk just visited: delete it,
bump the counters, drop the key from both in-memory tiers. -/
def sweepRemove (st : SweepState) (path : String) (size : Int) : SweepState :=
  { removed := path :: st.removed,
    memory := st.memory.map (fun c => memRemove c path),
    hot := st.hot.map (fun h => hotRemove h path),
    stats := { st.stats with files := st.stats.files + 1, bytes := st.stats.bytes + size } }

/-- The body of the `WalkDir` closure in `cleanupOnce` for one regular file:
skip foreign extensions; TTL-expired files are kept only when the hot-set
protects them; otherwise match the file against its presumed original and
remove orphans and outdated entries. -/
def cleanupVisit (cfg : Config) (now : Int) (origFS : FS) (st : SweepState)
    (f : String × FileData) : SweepState :=
  if !(isAllowedCacheExt f.1) then st
  else
    let size : Int := f.2.content.length
    if cfg.ttl > 0 && now - f.2.mtime > cfg.ttl then
      match shouldKeepHot st f.1 size with
      | (true, st2) => st2
      | (false, st2) => sweepRemove st2 f.1 size
    else
      match splitCachePath cfg.cacheDir f.1 with
      | none => st
      | some (_, rel) =>
        match lookupOriginalInfo origFS cfg.baseDir rel with
        | none => sweepRemove st f.1 size
        | some orig =>
          if orig.mtime > f.2.mtime then sweepRemove st f.1 size else st

/-- The sweeper's initial state for a pass. -/
def sweepInit (m : Manager) : SweepState :=
  ⟨[], m.memory, m.hot, ⟨0, 0, 0, 0⟩⟩

/-- One sweep pass (`cleanupOnce`): visit the walked regular files in
discovery order.  Directory pruning and logging are not modelled. -/
def cleanupRun (cfg : Config) (now : Int) (origFS : FS)
    (walkFiles : List (String × FileData)) (m : Manager) : SweepState :=
  walkFiles.foldl (cleanupVisit cfg now origFS) (sweepInit m)

/-- No memory-tier entry for the key (vacuously true when disabled). -/
def memAbsent (o : Option MemCache) (p : String) : Prop :=
  ∀ mc, o = some mc → memFind mc p = none

/-- No hot-set entry for the key (vacuously true when disabled). -/
def hotAbsent (o : Option HotCache) (p : String) : Prop :=
  ∀ h, o = some h → hotFind h p = none

/-! ## Keyed locker (`internal/locker/locks.go`)

An interleaving model at the granularity of the code's atomic sections.
A `KeyedLocker.Lock(key)` call is `get` (one critical section of the table
mutex `k.mu`) followed by blocking on the per-key `sync.Mutex`; the release
closure is `Unlock` followed by `k.release` (another `k.mu` section).
Each mutex object allocated by `get` is identified by a fresh number. -/

inductive ThPC
  | start
  | waiting
  | critical
  | unlocked
  | done
deriving DecidableEq, Repr

/-- One request goroutine: where it is in Lock/critical/release, the key it
locks, and the identity of the mutex object its `get` returned. -/
structure LThread where
  pc : ThPC
  key : String
  mid : Nat
deriving DecidableEq, Repr

structure LockerState where
  table : List (String × Nat)
  held : List Nat
  nextId : Nat
  threads : List LThread
deriving DecidableEq, Repr

inductive LAction
  | get
  | acquire
  | unlock
  | release
deriving DecidableEq, Repr

def tableLookup (t : List (String × Nat)) (key : String) : Option Nat :=
  (t.find? (fun e => e.1 = key)).map (fun e => e.2)

def tableErase (t : List (String × Nat)) (key : String) : List (String × Nat) :=
  t.filter (fun e => !(e.1 = key))

/-- Perform one atomic step of thread `i`; `none` when the step is not
enabled (wrong program counter, or the mutex is held for `acquire`). -/
def lockerStep (s : LockerState) (i : Nat) (a : LAction) : Option LockerState :=
  match s.threads[i]? with
  | none => none
  | some th =>
    match a, th.pc with
    | .get, .start =>
      match tableLookup s.table th.key with
      | some mid =>
        some { s with threads := s.threads.set i { th with pc := .waiting, mid := mid } }
      | none =>
        some
          { s with
            table := (th.key, s.nextId) :: s.table,
            nextId := s.nextId + 1,
            threads := s.threads.set i { th with pc := .waiting, mid := s.nextId } }
    | .acquire, .waiting =>
      if s.held.contains th.mid then none
      else
        some
          { s with
            held := th.mid :: s.held,
            threads := s.threads.set i { th with pc := .critical } }
    | .unlock, .critical =>
      some
        { s with
          held := s.held.filter (fun m => !(m = th.mid)),
          threads := s.threads.set i { th with pc := .unlocked } }
    | .release, .unlocked =>
      let table :=
        match tableLookup s.table th.key with
        | some cur => if cur = th.mid then tableErase s.table th.key else s.table
        | none => s.table
      some { s with table := table, threads := s.threads.set i { th with pc := .done } }
    | _, _ => none

/-- Run a schedule of (thread, action) steps. -/
def lockerRun (s : LockerState) : List (Nat × LAction) → Option LockerState
  | [] => some s
  | (i, a) :: rest =>
    match lockerStep s i a with
    | none => none
    | some s2 => lockerRun s2 rest

/-- Three goroutines racing on the same key. -/
def lockerInit : LockerState :=
  ⟨[], [], 0, [⟨.start, "k", 0⟩, ⟨.start, "k", 0⟩, ⟨.start, "k", 0⟩]⟩

/-- The schedule exhibiting the race: thread 0 builds and releases while
thread 1 is queued on the same mutex; the release drops the table entry, so
thread 2 allocates a fresh mutex and enters, after which thread 1 also
enters on the orphaned mutex. -/
def lockerRaceSchedule : List (Nat × LAction) :=
  [(0, .get), (0, .acquire), (1, .get), (0, .unlock), (0, .release),
    (2, .get), (2, .acquire), (1, .acquire)]

/-- The prefix of the schedule up to and including thread 0's release. -/
def lockerRaceScheduleAtRelease : List (Nat × LAction) :=
  [(0, .get), (0, .acquire), (1, .get), (0, .unlock), (0, .release)]

/-- How many threads are inside the critical section for `key`. -/
def criticalCount (s : LockerState) (key : String) : Nat :=
  (s.threads.filter (fun th => th.pc = ThPC.critical && th.key = key)).length

/-! ## Request pipeline (`internal/httpapi/handler.go`, `handleResize`) -/

/-- The externally visible side effects of one request, in program order. -/
inductive Effect
  | resolveEff
  | statOriginal
  | cacheProbe
  | lockKey
  | readOriginal
  | encode
  | cacheWrite
deriving DecidableEq, Repr

structure SourceCandidate where
  relative : String
  cacheSuffix : String
deriving DecidableEq, Repr

/-- `buildSourceCandidates`: the path as given, plus — when a double
extension has a known penultimate format — the base path with the trailing
extension recorded as the cache-key suffix. -/
def buildSourceCandidatesGo (relative rawExt : String) : List SourceCandidate :=
  let first : List SourceCandidate := [⟨relative, ""⟩]
  if rawExt = "" then first
  else
    let base := strTrimSuffix relative rawExt
    if base = relative then first
    else
      match extensionToFormat (strToLower (goExt base)) with
      | some _ => first ++ [⟨base, strToLower rawExt⟩]
      | none => first

def hasJPEGExtension (path : String) : Bool :=
  let e := strToLower (goExt path)
  e = ".jpg" || e = ".jpeg"

/-- Replace every "%20" with a space (`strings.ReplaceAll` guarded by
`strings.Contains`, which agrees with unconditional replacement). -/
def replacePct20 : List Char → List Char
  | '%' :: '2' :: '0' :: rest => ' ' :: replacePct20 rest
  | c :: rest => c :: replacePct20 rest
  | [] => []

/-- `Handler.respondError`: an HTML error page (body text not modelled). -/
def respondError (code : Nat) : Response :=
  ⟨code, [("Content-Type", "text/html; charset=utf-8"), ("Cache-Control", "no-cache")], none⟩

/-- The resolved source: cache-relative key, absolute original path, its
stat, and the ensure-opaque flag. -/
structure ResolvedSource where
  cacheRel : String
  originalPath : String
  originalInfo : FileData
  ensureOpaque : Bool
deriving DecidableEq, Repr

/-- The candidate loop of `handleResize`: resolve and stat each candidate in
order; a resolution failure is a 400, exhausting the candidates a 404. -/
def candidateLoop (cfg : Config) (fs : FS) (effects : List Effect) :
    List SourceCandidate → List Effect × Except Response ResolvedSource
  | [] => (effects, .error (respondError 404))
  | cand :: rest =>
    let effects := effects ++ [Effect.resolveEff]
    match resolvePaths cfg cand.relative with
    | .error _ => (effects, .error (respondError 400))
    | .ok (cleanCandidate, candidatePath) =>
      let effects := effects ++ [Effect.statOriginal]
      match fsStat fs candidatePath with
      | none =>
        if rest.isEmpty then (effects, .error (respondError 404))
        else candidateLoop cfg fs effects rest
      | some info =>
        let cacheRel :=
          if cand.cacheSuffix = "" then cleanCandidate
          else cleanCandidate ++ cand.cacheSuffix
        (effects, .ok ⟨cacheRel, candidatePath, info, hasJPEGExtension cleanCandidate⟩)

/-- The abstract encoder (`Processor.Resize`): source bytes and options to
encoded bytes, `none` for an encoder failure. -/
def EncodeFn : Type :=
  List Nat → Int → Int → ImgFormat → Bool → Option (List Nat)

structure Request where
  geometry : String
  reqPath : String
  inm : String
  ims : String

/-- Everything one request run produces: the response, the final filesystem
and manager, and the effect trace. -/
structure HandlerOut where
  resp : Response
  fs : FS
  mgr : Manager
  effects : List Effect
deriving DecidableEq

/-- The encode-and-write tail of `handleResize` (after both freshness probes
missed): read the original, encode, write through the cache, serve. -/
def handleResizeEncode (cfg : Config) (ctx : ServeCtx) (enc : EncodeFn) (fs : FS)
    (now : Int) (mgr : Manager) (req : Request) (width height : Int)
    (cachePath : String) (format : ImgFormat) (src : ResolvedSource)
    (effects : List Effect) : HandlerOut :=
  let effects := effects ++ [Effect.readOriginal]
  match fsStat fs src.originalPath with
  | none => ⟨respondError 500, fs, mgr, effects⟩
  | some sourceFile =>
    let effects := effects ++ [Effect.encode]
    match enc sourceFile.content width height format src.ensureOpaque with
    | none => ⟨respondError 500, fs, mgr, effects⟩
    | some payload =>
      let effects := effects ++ [Effect.cacheWrite]
      match writeCache fs now mgr cachePath payload with
      | (fs2, mgr2) =>
        match tryServeFromCache ctx fs2 cachePath format req.inm req.ims with
        | some r => ⟨r, fs2, mgr2, effects⟩
        | none => ⟨respondError 500, fs2, mgr2, effects⟩

/-- The build half of `handleResize`: take the keyed lock, re-probe
(double-checked locking), and fall through to the encode tail on a miss. -/
def handleResizeBuild (cfg : Config) (ctx : ServeCtx) (enc : EncodeFn) (fs : FS)
    (now : Int) (mgr : Manager) (req : Request) (width height : Int)
    (cachePath : String) (format : ImgFormat) (src : ResolvedSource)
    (effects : List Effect) : HandlerOut :=
  let effects := effects ++ [Effect.lockKey, Effect.cacheProbe]
  match isFresh cfg fs now mgr cachePath (some src.originalInfo) with
  | (true, mgr2) =>
    match tryServeFromCache ctx fs cachePath format req.inm req.ims with
    | some r => ⟨r, fs, mgr2, effects⟩
    | none =>
      handleResizeEncode cfg ctx enc fs now mgr2 req width height cachePath format src effects
  | (false, mgr2) =>
    handleResizeEncode cfg ctx enc fs now mgr2 req width height cachePath format src effects

/-- `Handler.handleResize` as a sequential run (the keyed lock acquisition
always succeeds here; blocking behaviour lives in the locker model). -/
def handleResize (cfg : Config) (ctx : ServeCtx) (enc : EncodeFn) (fs : FS)
    (now : Int) (mgr : Manager) (req : Request) : HandlerOut :=
  match parseGeometryGo req.geometry with
  | .error _ => ⟨respondError 400, fs, mgr, []⟩
  | .ok (width, height) =>
  match validateDimensions cfg width height with
  | some _ => ⟨respondError 400, fs, mgr, []⟩
  | none =>
  if req.reqPath = "" then ⟨respondError 400, fs, mgr, []⟩
  else
  let relative := strTrimPre (String.mk (replacePct20 req.reqPath.data)) "/"
  if strTrimSpace relative = "" then ⟨respondError 400, fs, mgr, []⟩
  else
  let rawExt := goExt relative
  match extensionToFormat (strToLower rawExt) with
  | none => ⟨respondError 415, fs, mgr, []⟩
  | some format =>
  match candidateLoop cfg fs [] (buildSourceCandidatesGo relative rawExt) with
  | (effects, .error resp) => ⟨resp, fs, mgr, effects⟩
  | (effects, .ok src) =>
  let cachePath := cachePathOf cfg width height src.cacheRel
  let effects := effects ++ [Effect.cacheProbe]
  match isFresh cfg fs now mgr cachePath (some src.originalInfo) with
  | (true, mgr2) =>
    match tryServeFromCache ctx fs cachePath format req.inm req.ims with
    | some r => ⟨r, fs, mgr2, effects⟩
    | none =>
      handleResizeBuild cfg ctx enc fs now mgr2 req width height cachePath format src effects
  | (false, mgr2) =>
    handleResizeBuild cfg ctx enc fs now mgr2 req width height cachePath format src effects

/-! ## Concrete fixtures used by witnesses and counterexamples -/

/-- A minimal configuration: memory tier, hot-set and TTL disabled. -/
def cfgPlain : Config :=
  ⟨"/base", "/cache", 2000, 2000, 0, 0, 0, 0, 0, []⟩

/-- A configuration with a 100-unit TTL. -/
def cfgTTL : Config :=
  ⟨"/base", "/cache", 2000, 2000, 100, 50, 0, 0, 0, []⟩

/-- One original under the base directory. -/
def fsOneOriginal : FS :=
  [("/base/a.png", ⟨[7, 7], 5⟩)]

/-- Opaque serve collaborators for concrete runs. -/
def ctxPlain : ServeCtx :=
  ⟨fun p => "W" ++ toString p.length, fun _ => none, fun t => "T" ++ toString t⟩

/-- An encoder that always produces the two-byte payload [9, 9]. -/
def encPlain : EncodeFn :=
  fun _ _ _ _ _ => some [9, 9]

/-- Total byte size of hot-set entries (the quantity `hotCache.used` tracks). -/
def sumHotSizes (l : List HotEntry) : Int :=
  (l.map HotEntry.size).sum

/-- The keys of a hot-set entry list. -/
def hotKeys (l : List HotEntry) : List String :=
  l.map HotEntry.key

/-! ## Helper lemmas -/

theorem toDigitsCore_eq_nil (b : Nat) :
    ∀ (fuel n : Nat) (ds : List Char), Nat.toDigitsCore b fuel n ds = [] → ds = [] := by
  intro fuel
  induction fuel with
  | zero => intro n ds h; exact h
  | succ f ih =>
    intro n ds h
    unfold Nat.toDigitsCore at h
    by_cases hnb : n / b = 0
    · simp [hnb] at h
    · simp only [hnb, if_false] at h
      exact absurd (ih _ _ h) (by simp)

theorem toDigits_ne_nil (b n : Nat) : Nat.toDigits b n ≠ [] := by
  intro h
  unfold Nat.toDigits Nat.toDigitsCore at h
  by_cases hnb : n / b = 0
  · simp [hnb] at h
  · simp only [hnb, if_false] at h
    exact absurd (toDigitsCore_eq_nil b _ _ _ h) (by simp)

theorem natRepr_ne_empty (n : Nat) : Nat.repr n ≠ "" := by
  unfold Nat.repr
  intro h
  have : Nat.toDigits 10 n = [] := by
    have := congrArg String.data h
    simpa [List.asString] using this
  exact toDigits_ne_nil 10 n this

theorem intToString_pos_ne_empty (w : Int) (h : 0 < w) : toString w ≠ "" := by
  cases w with
  | ofNat n => simpa [toString, Int.repr] using natRepr_ne_empty n
  | negSucc n => exact absurd h (by simp)

theorem memFind_memRemove (c : MemCache) (k : String) :
    memFind (memRemove c k) k = none := by
  unfold memRemove memRemoveElement
  cases hf : memFind c k with
  | none => exact hf
  | some e =>
    simp only [memFind, List.find?_eq_none, decide_eq_true_eq]
    intro x hx
    rcases List.mem_filter.mp hx with ⟨-, hpred⟩
    simpa using hpred

/-! ## C9: cache path layout -/

/-- C9 (confirmed): for non-negative dimensions and a cleaned relative path,
`CachePath` is the join of `cache_dir`, the geometry prefix and the path,
where the prefix renders a positive side as its literal integer, omits a
zero side, and is exactly "0x0" when both sides are zero. -/
theorem claim_C9_cachePath_format (cfg : Config) (width height : Int) (rel : String)
    (hw : 0 ≤ width) (hh : 0 ≤ height)
    (hclean : goClean (strTrimPre rel "/") = rel) :
    cachePathOf cfg width height rel =
      goJoinList [cfg.cacheDir, formatGeometryPrefix width height, rel] ∧
    (0 < width → 0 < height →
      formatGeometryPrefix width height = toString width ++ "x" ++ toString height) ∧
    (0 < width → height = 0 →
      formatGeometryPrefix width height = toString width ++ "x") ∧
    (width = 0 → 0 < height →
      formatGeometryPrefix width height = "x" ++ toString height) ∧
    (width = 0 → height = 0 → formatGeometryPrefix width height = "0x0") := by
  refine ⟨?_, ?_, ?_, ?_, ?_⟩
  · unfold cachePathOf
    rw [hclean]
  · intro h1 h2
    simp [formatGeometryPrefix, h1, h2, intToString_pos_ne_empty width h1]
  · intro h1 h2
    simp [formatGeometryPrefix, h1, h2, intToString_pos_ne_empty width h1]
  · intro h1 h2
    simp [formatGeometryPrefix, h1, h2, intToString_pos_ne_empty height h2]
  · intro h1 h2
    simp [formatGeometryPrefix, h1, h2]

/-- Witness for C9 at width 100, height 0, path "img/a.jpg". -/
theorem claim_C9_witness :
    cachePathOf cfgPlain 100 0 "img/a.jpg" =
      goJoinList [cfgPlain.cacheDir, formatGeometryPrefix 100 0, "img/a.jpg"] ∧
    formatGeometryPrefix 100 0 = toString (100 : Int) ++ "x" := by
  have h := claim_C9_cachePath_format cfgPlain 100 0 "img/a.jpg"
    (by decide) (by decide) (by decide)
  exact ⟨h.1, h.2.2.1 (by decide) rfl⟩

/-! ## C4: freshness predicate -/

/-- C4 (confirmed): `IsFresh(cachePath, original)` is true iff the cache
file exists, the original's mtime is zero or at most the cache mtime, and
TTL is disabled or the cache file's age is within it; every false result
leaves no memory-tier entry for the key. -/
theorem claim_C4_isFresh_iff (cfg : Config) (fs : FS) (now : Int) (m : Manager)
    (cachePath : String) (o : FileData) :
    ((isFresh cfg fs now m cachePath (some o)).1 = true ↔
      ∃ info, fsStat fs cachePath = some info ∧
        (o.mtime = 0 ∨ o.mtime ≤ info.mtime) ∧
        (cfg.ttl ≤ 0 ∨ now - info.mtime ≤ cfg.ttl)) ∧
    ((isFresh cfg fs now m cachePath (some o)).1 = false →
      ∀ mc, (isFresh cfg fs now m cachePath (some o)).2.memory = some mc →
        memFind mc cachePath = none) := by
  have hev : ∀ mc, (evictMemory m cachePath).memory = some mc →
      memFind mc cachePath = none := by
    intro mc hmc
    unfold evictMemory at hmc
    cases hm : m.memory with
    | none => rw [hm] at hmc; exact absurd hmc (by simp)
    | some mc0 =>
      rw [hm] at hmc
      simp only [Option.map_some] at hmc
      rw [← Option.some_inj.mp hmc]
      exact memFind_memRemove mc0 cachePath
  cases hstat : fsStat fs cachePath with
  | none =>
    refine ⟨by simp [isFresh, hstat], ?_⟩
    intro _ mc hmc
    simp only [isFresh, hstat] at hmc
    exact hev mc hmc
  | some info =>
    by_cases hA : o.mtime ≠ 0 ∧ info.mtime < o.mtime
    · have c1 : (decide (o.mtime ≠ 0) && decide (o.mtime > info.mtime)) = true := by
        simp [hA.1, gt_iff_lt, hA.2]
      have e : isFresh cfg fs now m cachePath (some o) = (false, evictMemory m cachePath) := by
        simp only [isFresh, hstat, c1, if_true]
      rw [e]
      refine ⟨?_, fun _ mc hmc => hev mc hmc⟩
      constructor
      · intro hft
        exact absurd hft (by simp)
      · rintro ⟨info2, hinfo2, hmt, -⟩
        obtain rfl := Option.some_inj.mp hinfo2
        exfalso
        rcases hmt with h | h
        · exact hA.1 h
        · omega
    · have c1 : (decide (o.mtime ≠ 0) && decide (o.mtime > info.mtime)) = false := by
        rcases not_and_or.mp hA with h | h
        · simp only [not_not] at h
          simp [h]
        · simp [gt_iff_lt, h]
      by_cases hB : 0 < cfg.ttl ∧ cfg.ttl < now - info.mtime
      · have c2 : (decide (cfg.ttl > 0) && decide (now - info.mtime > cfg.ttl)) = true := by
          simp [gt_iff_lt, hB.1, hB.2]
        have e : isFresh cfg fs now m cachePath (some o) = (false, evictMemory m cachePath) := by
          simp only [isFresh, hstat, c1, c2, if_true, Bool.false_eq_true, if_false]
        rw [e]
        refine ⟨?_, fun _ mc hmc => hev mc hmc⟩
        constructor
        · intro hft
          exact absurd hft (by simp)
        · rintro ⟨info2, hinfo2, -, httl⟩
          obtain rfl := Option.some_inj.mp hinfo2
          exfalso
          rcases httl with h | h
          · omega
          · omega
      · have c2 : (decide (cfg.ttl > 0) && decide (now - info.mtime > cfg.ttl)) = false := by
          rcases not_and_or.mp hB with h | h
          · simp [gt_iff_lt, h]
          · simp [gt_iff_lt, h]
        have e : isFresh cfg fs now m cachePath (some o) = (true, m) := by
          simp only [isFresh, hstat, c1, c2, Bool.false_eq_true, if_false]
        rw [e]
        refine ⟨?_, by simp⟩
        refine ⟨fun _ => ⟨info, rfl, ?_, ?_⟩, fun _ => rfl⟩
        · rcases not_and_or.mp hA with h | h
          · simp only [not_not] at h
            exact Or.inl h
          · exact Or.inr (by omega)
        · rcases not_and_or.mp hB with h | h
          · exact Or.inl (by omega)
          · exact Or.inr (by omega)

/-- Witness for C4: a cache file older than the original is not fresh, and
the memory entry for the key is evicted. -/
theorem claim_C4_witness :
    ((isFresh cfgTTL [("/cache/2x2/a.png", ⟨[1], 3⟩)] 10
        ⟨some ⟨100, 100, 0, [⟨"/cache/2x2/a.png", [1], 1, 3⟩]⟩, none⟩
        "/cache/2x2/a.png" (some ⟨[7, 7], 5⟩)).1 = true ↔
      ∃ info, fsStat [("/cache/2x2/a.png", ⟨[1], 3⟩)] "/cache/2x2/a.png" = some info ∧
        ((5 : Int) = 0 ∨ (5 : Int) ≤ info.mtime) ∧
        (cfgTTL.ttl ≤ 0 ∨ 10 - info.mtime ≤ cfgTTL.ttl)) ∧
    ((isFresh cfgTTL [("/cache/2x2/a.png", ⟨[1], 3⟩)] 10
        ⟨some ⟨100, 100, 0, [⟨"/cache/2x2/a.png", [1], 1, 3⟩]⟩, none⟩
        "/cache/2x2/a.png" (some ⟨[7, 7], 5⟩)).1 = false →
      ∀ mc, (isFresh cfgTTL [("/cache/2x2/a.png", ⟨[1], 3⟩)] 10
          ⟨some ⟨100, 100, 0, [⟨"/cache/2x2/a.png", [1], 1, 3⟩]⟩, none⟩
          "/cache/2x2/a.png" (some ⟨[7, 7], 5⟩)).2.memory = some mc →
        memFind mc "/cache/2x2/a.png" = none) :=
  claim_C4_isFresh_iff cfgTTL [("/cache/2x2/a.png", ⟨[1], 3⟩)] 10
    ⟨some ⟨100, 100, 0, [⟨"/cache/2x2/a.png", [1], 1, 3⟩]⟩, none⟩
    "/cache/2x2/a.png" ⟨[7, 7], 5⟩

/-! ## C1: keyed locker -/

/-- C1 (code bug): in the interleaving model of `KeyedLocker`, after thread
0 releases while thread 1 is still queued on the same key, the per-key
entry is dropped from the table (first conjunct: table lookup is `none`
with thread 1 still waiting), and completing the schedule leaves threads 1
and 2 simultaneously inside the critical section for the key (second
conjunct), contradicting mutual exclusion and the claimed
drop-only-without-waiters rule. -/
theorem claim_C1_locker_race :
    ((lockerRun lockerInit lockerRaceScheduleAtRelease).map
        (fun s => (tableLookup s.table "k", s.threads.map LThread.pc)) =
      some (none, [ThPC.done, ThPC.waiting, ThPC.start])) ∧
    ((lockerRun lockerInit lockerRaceSchedule).map (fun s => criticalCount s "k") =
      some 2) := by
  constructor
  · rfl
  · rfl

/-! ## C10: negative geometry -/

/-- C10 (confirmed): a request whose geometry parses to a negative width or
height is answered 400 at dimension validation, before any path
resolution, filesystem access, cache probe or encoder call (the effect
trace is empty). -/
theorem claim_C10_negative_dimension (cfg : Config) (ctx : ServeCtx) (enc : EncodeFn)
    (fs : FS) (now : Int) (mgr : Manager) (req : Request) (w h : Int)
    (hparse : parseGeometryGo req.geometry = .ok (w, h)) (hneg : w < 0 ∨ h < 0) :
    handleResize cfg ctx enc fs now mgr req = ⟨respondError 400, fs, mgr, []⟩ := by
  have hval : validateDimensions cfg w h = some "dimensions must be non-negative" := by
    rcases hneg with h1 | h1 <;> simp [validateDimensions, h1]
  unfold handleResize
  rw [hparse]
  simp only [hval]

/-- Witness for C10 at geometry "-5x100". -/
theorem claim_C10_witness :
    handleResize cfgPlain ctxPlain encPlain fsOneOriginal 10 ⟨none, none⟩
        ⟨"-5x100", "/a.png", "", ""⟩ =
      ⟨respondError 400, fsOneOriginal, ⟨none, none⟩, []⟩ :=
  claim_C10_negative_dimension cfgPlain ctxPlain encPlain fsOneOriginal 10 ⟨none, none⟩
    ⟨"-5x100", "/a.png", "", ""⟩ (-5) 100 (by rfl) (by decide)

/-! ## C2: zero-by-zero geometry -/

/-- C2 counterexample: a request with geometry "0x0" for an existing
original is not rejected; it runs the full pipeline, invokes the encoder,
and answers 200. -/
theorem claim_C2_counterexample :
    (handleResize cfgPlain ctxPlain encPlain fsOneOriginal 10 ⟨none, none⟩
        ⟨"0x0", "/a.png", "", ""⟩).resp.status = 200 ∧
    Effect.encode ∈ (handleResize cfgPlain ctxPlain encPlain fsOneOriginal 10 ⟨none, none⟩
        ⟨"0x0", "/a.png", "", ""⟩).effects := by
  constructor
  · rfl
  · decide

/-- C2 amended (geometry 0x0 is accepted, not rejected):
`validateDimensions` returns no error on (0, 0) — in general it accepts
exactly the dimension pairs with both sides non-negative and each side
zero or within its configured maximum — so a 0x0 request proceeds past
validation (and, as the counterexample shows, can reach the encoder). -/
theorem claim_C2_amended_validate (cfg : Config) (w h : Int) :
    validateDimensions cfg 0 0 = none ∧
    (validateDimensions cfg w h = none ↔
      0 ≤ w ∧ 0 ≤ h ∧ (w = 0 ∨ w ≤ cfg.maxWidth) ∧ (h = 0 ∨ h ≤ cfg.maxHeight)) := by
  constructor
  · simp [validateDimensions]
  · unfold validateDimensions
    split_ifs with c1 c2 c3
    · simp only [Bool.or_eq_true, decide_eq_true_eq] at c1
      constructor
      · intro hcontra
        exact absurd hcontra (by simp)
      · rintro ⟨hw, hh, -, -⟩
        exfalso
        rcases c1 with hlt | hlt <;> omega
    · simp only [Bool.or_eq_true, decide_eq_true_eq, not_or, not_lt] at c1
      simp only [Bool.and_eq_true, decide_eq_true_eq] at c2
      constructor
      · intro hcontra
        exact absurd hcontra (by simp)
      · rintro ⟨hw, hh, hwm, -⟩
        exfalso
        rcases hwm with hwm | hwm <;> omega
    · simp only [Bool.or_eq_true, decide_eq_true_eq, not_or, not_lt] at c1
      simp only [Bool.and_eq_true, decide_eq_true_eq, not_and_or, not_lt] at c2
      simp only [Bool.and_eq_true, decide_eq_true_eq] at c3
      constructor
      · intro hcontra
        exact absurd hcontra (by simp)
      · rintro ⟨hw, hh, -, hhm⟩
        exfalso
        rcases hhm with hhm | hhm <;> omega
    · simp only [Bool.or_eq_true, decide_eq_true_eq, not_or, not_lt] at c1
      simp only [Bool.and_eq_true, decide_eq_true_eq, not_and_or, not_lt] at c2 c3
      refine ⟨fun _ => ⟨c1.1, c1.2, ?_, ?_⟩, fun _ => rfl⟩
      · rcases c2 with hc | hc
        · exact Or.inl (by omega)
        · exact Or.inr (by omega)
      · rcases c3 with hc | hc
        · exact Or.inl (by omega)
        · exact Or.inr (by omega)

/-! ## C5: hot-set marking on Write -/

theorem sumHotSizes_cons (a : HotEntry) (t : List HotEntry) :
    sumHotSizes (a :: t) = a.size + sumHotSizes t := by
  simp [sumHotSizes]

theorem sumHotSizes_dropLast (l : List HotEntry) (hne : l ≠ []) :
    sumHotSizes l = sumHotSizes l.dropLast + (l.getLast hne).size := by
  conv_lhs => rw [← List.dropLast_append_getLast hne]
  simp [sumHotSizes]

theorem hotFilter_eq_self (l : List HotEntry) (path : String)
    (hnot : path ∉ hotKeys l) :
    l.filter (fun x => !(x.key = path)) = l := by
  refine List.filter_eq_self.mpr ?_
  intro x hx
  simp only [Bool.not_eq_true', decide_eq_false_iff_not]
  intro heq
  exact hnot (heq ▸ List.mem_map_of_mem HotEntry.key hx)

theorem hotFilter_last_eq_dropLast (l : List HotEntry) (hne : l ≠ [])
    (hnd : (hotKeys l).Nodup) :
    l.filter (fun x => !(x.key = (l.getLast hne).key)) = l.dropLast := by
  have hsplit : l.dropLast ++ [l.getLast hne] = l := List.dropLast_append_getLast hne
  have hkeys : (hotKeys l.dropLast ++ [(l.getLast hne).key]).Nodup := by
    have : hotKeys (l.dropLast ++ [l.getLast hne]) =
        hotKeys l.dropLast ++ [(l.getLast hne).key] := by
      simp [hotKeys]
    rw [← this, hsplit]
    exact hnd
  have hknot : (l.getLast hne).key ∉ hotKeys l.dropLast := by
    have hd := List.nodup_append.mp hkeys
    intro hmem
    exact hd.2.2 hmem (by simp)
  have hfil1 : l.dropLast.filter (fun x => !(x.key = (l.getLast hne).key)) = l.dropLast :=
    hotFilter_eq_self _ _ hknot
  have hstep : l.filter (fun x => !(x.key = (l.getLast hne).key)) =
      (l.dropLast ++ [l.getLast hne]).filter
        (fun x => !(x.key = (l.getLast hne).key)) := by
    rw [hsplit]
  rw [hstep, List.filter_append, hfil1]
  simp

theorem sumHotSizes_find (l : List HotEntry) (path : String) (e : HotEntry)
    (hnd : (hotKeys l).Nodup)
    (hfind : l.find? (fun x => x.key = path) = some e) :
    sumHotSizes l = e.size + sumHotSizes (l.filter (fun x => !(x.key = path))) := by
  induction l with
  | nil => simp at hfind
  | cons a t ih =>
    by_cases hk : a.key = path
    · have he : e = a := by
        rw [List.find?_cons_of_pos _ (by simpa using hk)] at hfind
        exact (Option.some_inj.mp hfind).symm
      subst he
      have hnd2 := hnd
      simp only [hotKeys, List.map_cons, List.nodup_cons, List.mem_map] at hnd2
      have hnot : path ∉ hotKeys t := by
        intro hmem2
        obtain ⟨x, hx, hxk⟩ := List.mem_map.mp hmem2
        exact hnd2.1 ⟨x, hx, hxk.trans hk.symm⟩
      rw [List.filter_cons_of_neg (by simpa using hk), hotFilter_eq_self t path hnot,
        sumHotSizes_cons]
    · have hfind2 : t.find? (fun x => x.key = path) = some e := by
        rwa [List.find?_cons_of_neg _ (by simpa using hk)] at hfind
      have hnd2 : (hotKeys t).Nodup := by
        have := hnd
        simp only [hotKeys, List.map_cons, List.nodup_cons] at this
        exact this.2
      have := ih hnd2 hfind2
      rw [List.filter_cons_of_pos (by simpa using hk), sumHotSizes_cons, sumHotSizes_cons,
        this]
      omega

theorem hotEnforceGo_limit :
    ∀ (fuel : Nat) (h : HotCache), (hotEnforceGo fuel h).limit = h.limit := by
  intro fuel
  induction fuel with
  | zero => intro h; rfl
  | succ f ih =>
    intro h
    unfold hotEnforceGo
    split
    · split
      · rfl
      · rw [ih]
    · rfl

theorem hotEnforceGo_keeps_front :
    ∀ (fuel : Nat) (h : HotCache) (e : HotEntry) (rest : List HotEntry),
      h.entries = e :: rest →
      (hotKeys (e :: rest)).Nodup →
      h.used = sumHotSizes (e :: rest) →
      e.size ≤ h.limit →
      ∃ rest2, (hotEnforceGo fuel h).entries = e :: rest2 := by
  intro fuel
  induction fuel with
  | zero =>
    intro h e rest he _ _ _
    exact ⟨rest, by simpa [hotEnforceGo] using he⟩
  | succ f ih =>
    intro h e rest he hnd hsum hsz
    unfold hotEnforceGo
    by_cases hcond : (decide (h.limit > 0) && decide (h.used > h.limit)) = true
    · rw [if_pos hcond]
      simp only [Bool.and_eq_true, decide_eq_true_eq, gt_iff_lt] at hcond
      rw [he]
      cases hrest : rest with
      | nil =>
        exfalso
        subst hrest
        rw [hsum, sumHotSizes_cons] at hcond
        have : sumHotSizes ([] : List HotEntry) = 0 := by simp [sumHotSizes]
        omega
      | cons b t =>
        subst hrest
        have hne2 : e :: b :: t ≠ [] := by simp
        rw [List.getLast?_eq_getLast _ hne2]
        have hfil : (e :: b :: t).filter
            (fun x => !(x.key = ((e :: b :: t).getLast hne2).key)) =
            (e :: b :: t).dropLast :=
          hotFilter_last_eq_dropLast _ hne2 hnd
        have hdl : (e :: b :: t).dropLast = e :: (b :: t).dropLast := by simp
        refine ih _ e ((b :: t).dropLast) ?_ ?_ ?_ ?_
        · dsimp only
          rw [hfil]
          exact hdl
        · have hsub : (e :: (b :: t).dropLast).Sublist (e :: b :: t) :=
            List.Sublist.cons₂ e (List.dropLast_sublist (b :: t))
          exact ((hsub.map HotEntry.key).nodup hnd)
        · dsimp only
          have hsd := sumHotSizes_dropLast (e :: b :: t) hne2
          rw [hdl] at hsd
          omega
        · exact hsz
    · rw [if_neg hcond]
      exact ⟨rest, he⟩

theorem fsStat_fsInsert_self (fs : FS) (p : String) (d : FileData) :
    fsStat (fsInsert fs p d) p = some d := by
  simp [fsStat, fsInsert]

/-- C5 counterexample: memory tier disabled, hot-set enabled; after a
successful Write (the file is present afterwards) the hot-set is still
empty — the just-written entry was not marked. -/
theorem claim_C5_counterexample :
    (fsStat (writeCache [] 5 ⟨none, some ⟨100, 0, []⟩⟩ "/cache/1x1/a.jpg" [1, 2, 3]).1
        "/cache/1x1/a.jpg" = some ⟨[1, 2, 3], 5⟩) ∧
    (writeCache [] 5 ⟨none, some ⟨100, 0, []⟩⟩ "/cache/1x1/a.jpg" [1, 2, 3]).2 =
      ⟨none, some ⟨100, 0, []⟩⟩ := by
  constructor
  · rfl
  · rfl

/-- C5 amended: after a successful Write the hot-set is marked for the
cache path only when the memory tier is enabled — with the memory tier
disabled the manager (hot-set included) is untouched.  When the memory tier
is enabled and the hot-set is a well-formed LRU with room for the payload,
the freshly written key is present afterwards (at MRU, with the payload
size) and `protect` — the sweeper's TTL shield — succeeds on it. -/
theorem claim_C5_write_hot_amended (fs : FS) (now : Int) (m : Manager) (path : String)
    (payload : List Nat) :
    (m.memory = none → (writeCache fs now m path payload).2 = m) ∧
    (∀ mc hc, m.memory = some mc → m.hot = some hc →
      (hotKeys hc.entries).Nodup →
      hc.used = sumHotSizes hc.entries →
      0 < payload.length → (payload.length : Int) ≤ hc.limit →
      ∃ h2, (writeCache fs now m path payload).2.hot = some h2 ∧
        hotFind h2 path = some ⟨path, (payload.length : Int)⟩ ∧
        (hotProtect h2 path (payload.length : Int)).1 = true) := by
  constructor
  · intro hmem
    simp [writeCache, hmem]
  · intro mc hc hmem hhot hnd hsum hpos hfit
    have hlen : (0 : Int) < (payload.length : Int) := by exact_mod_cast hpos
    have hw : (writeCache fs now m path payload).2 =
        managerMarkHot { m with memory := some (memStore mc path payload now) } path
          (payload.length : Int) := by
      simp only [writeCache, hmem, fsStat_fsInsert_self]
    have hmark : (writeCache fs now m path payload).2.hot =
        some (hotMark hc path (payload.length : Int)) := by
      rw [hw]
      unfold managerMarkHot
      have hh2 : ({ m with memory := some (memStore mc path payload now) } : Manager).hot =
          some hc := by simpa using hhot
      rw [hh2]
      simp only []
      rw [if_neg (show ¬ ((payload.length : Int) ≤ 0) by omega)]
    have hup : hotMark hc path (payload.length : Int) =
        hotUpsert hc path (payload.length : Int) := by
      unfold hotMark
      rw [if_neg (by simp only [Bool.or_eq_true, decide_eq_true_eq]; omega)]
    set len : Int := (payload.length : Int) with hlendef
    -- the upserted state before limit enforcement
    have main : ∃ rest2, (hotUpsert hc path len).entries = ⟨path, len⟩ :: rest2 ∧
        (hotUpsert hc path len).limit = hc.limit := by
      unfold hotUpsert
      cases hfind : hotFind hc path with
      | some e =>
        have hfind2 : hc.entries.find? (fun x => x.key = path) = some e := hfind
        have hkey : e.key = path := by
          have := List.find?_some hfind2
          simpa using this
        have hsumf := sumHotSizes_find hc.entries path e hnd hfind2
        unfold hotEnforce
        have hkf := hotEnforceGo_keeps_front
          ((⟨path, len⟩ :: hc.entries.filter (fun x => !(x.key = path))).length)
          ⟨hc.limit, hc.used + len - e.size,
            ⟨path, len⟩ :: hc.entries.filter (fun x => !(x.key = path))⟩
          ⟨path, len⟩ (hc.entries.filter (fun x => !(x.key = path)))
          rfl ?_ ?_ ?_
        · obtain ⟨rest2, hrest2⟩ := hkf
          exact ⟨rest2, by simpa using hrest2, by simpa using hotEnforceGo_limit _ _⟩
        · show (path :: hotKeys (hc.entries.filter (fun x => !(x.key = path)))).Nodup
          refine List.nodup_cons.mpr ⟨?_, ?_⟩
          · intro hmem2
            obtain ⟨x, hx, hxk⟩ := List.mem_map.mp hmem2
            have hpf := List.of_mem_filter hx
            simp only [Bool.not_eq_true', decide_eq_false_iff_not] at hpf
            exact hpf hxk
          · have hsub : (hc.entries.filter (fun x => !(x.key = path))).Sublist hc.entries :=
              List.filter_sublist _
            exact ((hsub.map HotEntry.key).nodup hnd)
        · show hc.used + len - e.size = sumHotSizes (⟨path, len⟩ :: _)
          rw [sumHotSizes_cons]
          dsimp only
          rw [hsum, hsumf]
          omega
        · show (⟨path, len⟩ : HotEntry).size ≤ hc.limit
          dsimp only
          exact hfit
      | none =>
        have hnot : path ∉ hotKeys hc.entries := by
          intro hmem2
          obtain ⟨x, hx, hxk⟩ := List.mem_map.mp hmem2
          have := List.find?_eq_none.mp hfind x hx
          simp only [decide_eq_true_eq] at this
          exact this hxk
        unfold hotEnforce
        have hkf := hotEnforceGo_keeps_front
          ((⟨path, len⟩ :: hc.entries).length)
          ⟨hc.limit, hc.used + len, ⟨path, len⟩ :: hc.entries⟩
          ⟨path, len⟩ hc.entries rfl ?_ ?_ ?_
        · obtain ⟨rest2, hrest2⟩ := hkf
          exact ⟨rest2, by simpa using hrest2, by simpa using hotEnforceGo_limit _ _⟩
        · show (path :: hotKeys hc.entries).Nodup
          exact List.nodup_cons.mpr ⟨hnot, hnd⟩
        · show hc.used + len = sumHotSizes (⟨path, len⟩ :: hc.entries)
          rw [sumHotSizes_cons]
          dsimp only
          rw [hsum]
          omega
        · show (⟨path, len⟩ : HotEntry).size ≤ hc.limit
          dsimp only
          exact hfit
    obtain ⟨rest2, hent, hlim⟩ := main
    refine ⟨hotUpsert hc path len, by rw [hmark, hup], ?_, ?_⟩
    · unfold hotFind
      rw [hent]
      simp
    · unfold hotProtect
      rw [if_neg (by simp only [Bool.or_eq_true, decide_eq_true_eq]; omega)]
      unfold hotFind
      rw [hent]
      simp

/-! ## Path lemmas for C3 -/

theorem splitSlash_ne_nil : ∀ (s : List Char), splitSlash s ≠ [] := by
  intro s
  induction s with
  | nil => simp [splitSlash]
  | cons c cs ih =>
    unfold splitSlash
    by_cases hc : c = '/'
    · simp [hc]
    · rw [if_neg hc]
      cases hsc : splitSlash cs with
      | nil => simp
      | cons h t => simp

theorem splitSlash_no_slash : ∀ (s : List Char), ∀ x ∈ splitSlash s, '/' ∉ x := by
  intro s
  induction s with
  | nil =>
    intro x hx
    simp [splitSlash] at hx
    simp [hx]
  | cons c cs ih =>
    intro x hx
    unfold splitSlash at hx
    by_cases hc : c = '/'
    · rw [if_pos hc] at hx
      rcases List.mem_cons.mp hx with rfl | hx2
      · simp
      · exact ih x hx2
    · rw [if_neg hc] at hx
      cases hsc : splitSlash cs with
      | nil => exact absurd hsc (splitSlash_ne_nil cs)
      | cons h t =>
        rw [hsc] at hx
        rcases List.mem_cons.mp hx with rfl | hx2
        · intro hmem
          rcases List.mem_cons.mp hmem with h1 | h2
          · exact hc h1.symm
          · exact ih h (hsc ▸ List.mem_cons_self h t) h2
        · exact ih x (hsc ▸ List.mem_cons_of_mem h hx2)

theorem splitSlash_cons_slash (s : List Char) :
    splitSlash ('/' :: s) = [] :: splitSlash s := by
  simp [splitSlash]

theorem splitSlash_cons_other (c : Char) (s : List Char) (hc : ¬ c = '/') :
    splitSlash (c :: s) =
      (match splitSlash s with | [] => [[c]] | h :: t => (c :: h) :: t) := by
  simp [splitSlash, hc]

theorem splitSlash_append : ∀ (a b : List Char),
    splitSlash (a ++ '/' :: b) = splitSlash a ++ splitSlash b := by
  intro a b
  induction a with
  | nil => simp [splitSlash]
  | cons c cs ih =>
    by_cases hc : c = '/'
    · subst hc
      rw [List.cons_append, splitSlash_cons_slash, splitSlash_cons_slash, ih,
        List.cons_append]
    · rw [List.cons_append, splitSlash_cons_other c _ hc, splitSlash_cons_other c _ hc]
      cases hsc : splitSlash cs with
      | nil => exact absurd hsc (splitSlash_ne_nil cs)
      | cons h t =>
        have h3 : splitSlash (cs ++ '/' :: b) = (h :: t) ++ splitSlash b := by
          rw [ih, hsc]
        rw [h3]
        simp

theorem pathComps_append (a b : List Char) :
    pathComps (a ++ '/' :: b) = pathComps a ++ pathComps b := by
  unfold pathComps
  rw [splitSlash_append, List.filter_append]

theorem pathComps_elem_spec (s : List Char) :
    ∀ x ∈ pathComps s, x ≠ [] ∧ '/' ∉ x := by
  intro x hx
  unfold pathComps at hx
  constructor
  · have := List.of_mem_filter hx
    simpa using this
  · exact splitSlash_no_slash s x (List.mem_of_mem_filter hx)

theorem splitSlash_of_no_slash (c : List Char) (hne : c ≠ []) (hns : '/' ∉ c) :
    splitSlash c = [c] := by
  induction c with
  | nil => exact absurd rfl hne
  | cons a t ih =>
    have ha : a ≠ '/' := fun h => hns (h ▸ List.mem_cons_self a t)
    unfold splitSlash
    rw [if_neg ha]
    by_cases ht : t = []
    · subst ht
      simp [splitSlash]
    · rw [ih ht (fun hm => hns (List.mem_cons_of_mem a hm))]

theorem pathComps_single (c : List Char) (hne : c ≠ []) (hns : '/' ∉ c) :
    pathComps c = [c] := by
  unfold pathComps
  rw [splitSlash_of_no_slash c hne hns]
  simp [hne]

theorem pathComps_joinComps : ∀ (l : List (List Char)),
    (∀ x ∈ l, x ≠ [] ∧ '/' ∉ x) → pathComps (joinComps l) = l := by
  intro l
  induction l with
  | nil => intro _; simp [joinComps, pathComps, splitSlash]
  | cons c t ih =>
    intro hl
    cases t with
    | nil =>
      have hc := hl c (by simp)
      simpa [joinComps] using pathComps_single c hc.1 hc.2
    | cons d t2 =>
      have hstep : joinComps (c :: d :: t2) = c ++ '/' :: joinComps (d :: t2) := rfl
      rw [hstep, pathComps_append]
      have hc := hl c (by simp)
      rw [pathComps_single c hc.1 hc.2]
      rw [ih (fun x hx => hl x (List.mem_cons_of_mem c hx))]
      simp

theorem pathComps_cons_slash (s : List Char) : pathComps ('/' :: s) = pathComps s := by
  unfold pathComps
  rw [splitSlash_cons_slash]
  simp

theorem pathComps_renderPath (abs : Bool) (l : List (List Char))
    (hl : ∀ x ∈ l, x ≠ [] ∧ '/' ∉ x) (hne : l ≠ [] ∨ abs = true) :
    pathComps (renderPath abs l) = l := by
  cases l with
  | nil =>
    rcases hne with h | h
    · exact absurd rfl h
    · subst h
      simp [renderPath, pathComps, splitSlash]
  | cons c t =>
    unfold renderPath
    cases abs with
    | true =>
      simp only [if_true, List.singleton_append]
      rw [pathComps_cons_slash]
      exact pathComps_joinComps (c :: t) hl
    | false =>
      simp only [if_false, List.nil_append]
      exact pathComps_joinComps (c :: t) hl

theorem cleanGo_no_dots_id (abs : Bool) :
    ∀ (l acc : List (List Char)),
      (∀ x ∈ l, x ≠ ['.'] ∧ x ≠ ['.', '.']) →
      cleanGo abs acc l = acc.reverse ++ l := by
  intro l
  induction l with
  | nil =>
    intro acc _
    simp [cleanGo]
  | cons c cs ih =>
    intro acc hl
    have hc := hl c (by simp)
    unfold cleanGo
    rw [if_neg hc.1, if_neg hc.2]
    rw [ih (c :: acc) (fun x hx => hl x (List.mem_cons_of_mem c hx))]
    simp

theorem cleanGo_mem (abs : Bool) :
    ∀ (l acc : List (List Char)), (∀ x ∈ acc, x ≠ ['.']) →
      ∀ x ∈ cleanGo abs acc l, (x ∈ acc ∨ x ∈ l ∨ x = ['.', '.']) ∧ x ≠ ['.'] := by
  intro l
  induction l with
  | nil =>
    intro acc hacc x hx
    have hx2 : x ∈ acc := List.mem_reverse.mp (by simpa [cleanGo] using hx)
    exact ⟨Or.inl hx2, hacc x hx2⟩
  | cons c cs ih =>
    intro acc hacc x hx
    unfold cleanGo at hx
    by_cases h1 : c = ['.']
    · rw [if_pos h1] at hx
      rcases ih acc hacc x hx with ⟨hm, hd⟩
      exact ⟨hm.elim Or.inl (fun h => h.elim
        (fun h2 => Or.inr (Or.inl (List.mem_cons_of_mem c h2))) (Or.inr ∘ Or.inr)), hd⟩
    · rw [if_neg h1] at hx
      by_cases h2 : c = ['.', '.']
      · rw [if_pos h2] at hx
        cases acc with
        | nil =>
          cases abs with
          | true =>
            simp only [if_true] at hx
            rcases ih [] (by simp) x hx with ⟨hm, hd⟩
            refine ⟨?_, hd⟩
            rcases hm with h | h | h
            · simp at h
            · exact Or.inr (Or.inl (List.mem_cons_of_mem c h))
            · exact Or.inr (Or.inr h)
          | false =>
            simp only [Bool.false_eq_true, if_false] at hx
            rcases ih [['.', '.']] (by simp) x hx with ⟨hm, hd⟩
            refine ⟨?_, hd⟩
            rcases hm with h | h | h
            · simp only [List.mem_singleton] at h
              exact Or.inr (Or.inr h)
            · exact Or.inr (Or.inl (List.mem_cons_of_mem c h))
            · exact Or.inr (Or.inr h)
        | cons t rest =>
          dsimp only at hx
          by_cases h3 : t = ['.', '.']
          · rw [if_pos h3] at hx
            rcases ih (['.', '.'] :: t :: rest) (by
              intro y hy
              rcases List.mem_cons.mp hy with rfl | hy2
              · simp
              · exact hacc y hy2) x hx with ⟨hm, hd⟩
            refine ⟨?_, hd⟩
            rcases hm with h | h | h
            · rcases List.mem_cons.mp h with rfl | h4
              · exact Or.inr (Or.inr rfl)
              · exact Or.inl h4
            · exact Or.inr (Or.inl (List.mem_cons_of_mem c h))
            · exact Or.inr (Or.inr h)
          · rw [if_neg h3] at hx
            rcases ih rest (fun y hy => hacc y (List.mem_cons_of_mem t hy)) x hx with ⟨hm, hd⟩
            refine ⟨?_, hd⟩
            rcases hm with h | h | h
            · exact Or.inl (List.mem_cons_of_mem t h)
            · exact Or.inr (Or.inl (List.mem_cons_of_mem c h))
            · exact Or.inr (Or.inr h)
      · rw [if_neg h2] at hx
        rcases ih (c :: acc) (by
          intro y hy
          rcases List.mem_cons.mp hy with rfl | hy2
          · exact h1
          · exact hacc y hy2) x hx with ⟨hm, hd⟩
        refine ⟨?_, hd⟩
        rcases hm with h | h | h
        · rcases List.mem_cons.mp h with he | h4
          · exact Or.inr (Or.inl (by rw [he]; exact List.mem_cons_self c cs))
          · exact Or.inl h4
        · exact Or.inr (Or.inl (List.mem_cons_of_mem c h))
        · exact Or.inr (Or.inr h)

theorem cleanGo_abs_no_dotdot :
    ∀ (l acc : List (List Char)), (∀ x ∈ acc, x ≠ ['.', '.']) →
      ∀ x ∈ cleanGo true acc l, x ≠ ['.', '.'] := by
  intro l
  induction l with
  | nil =>
    intro acc hacc x hx
    exact hacc x (List.mem_reverse.mp (by simpa [cleanGo] using hx))
  | cons c cs ih =>
    intro acc hacc x hx
    unfold cleanGo at hx
    by_cases h1 : c = ['.']
    · rw [if_pos h1] at hx
      exact ih acc hacc x hx
    · rw [if_neg h1] at hx
      by_cases h2 : c = ['.', '.']
      · rw [if_pos h2] at hx
        cases acc with
        | nil =>
          simp only [if_true] at hx
          exact ih [] (by simp) x hx
        | cons t rest =>
          dsimp only at hx
          by_cases h3 : t = ['.', '.']
          · exact absurd h3 (hacc t (List.mem_cons_self t rest))
          · rw [if_neg h3] at hx
            exact ih rest (fun y hy => hacc y (List.mem_cons_of_mem t hy)) x hx
      · rw [if_neg h2] at hx
        refine ih (c :: acc) ?_ x hx
        intro y hy
        rcases List.mem_cons.mp hy with rfl | hy2
        · exact h2
        · exact hacc y hy2

theorem cleanGo_rel_shape :
    ∀ (l normal : List (List Char)) (k : Nat),
      (∀ x ∈ normal, x ≠ ['.', '.']) →
      ∃ normal2 k2, (∀ x ∈ normal2, x ≠ ['.', '.']) ∧
        cleanGo false (normal ++ List.replicate k ['.', '.']) l =
          List.replicate k2 ['.', '.'] ++ normal2 := by
  intro l
  induction l with
  | nil =>
    intro normal k hn
    refine ⟨normal.reverse, k, fun x hx => hn x (List.mem_reverse.mp hx), ?_⟩
    show (normal ++ List.replicate k ['.', '.']).reverse = _
    rw [List.reverse_append, List.reverse_replicate]
  | cons c cs ih =>
    intro normal k hn
    unfold cleanGo
    by_cases h1 : c = ['.']
    · rw [if_pos h1]
      exact ih normal k hn
    · rw [if_neg h1]
      by_cases h2 : c = ['.', '.']
      · rw [if_pos h2]
        cases hnormal : normal with
        | nil =>
          cases k with
          | zero => simpa using ih [] 1 (by simp)
          | succ k2 =>
            have hrepl : ([] : List (List Char)) ++ List.replicate (k2 + 1) ['.', '.'] =
                ['.', '.'] :: List.replicate k2 ['.', '.'] := by
              simp [List.replicate_succ]
            rw [hrepl]
            dsimp only
            rw [if_pos (show (['.', '.'] : List Char) = ['.', '.'] from rfl)]
            have hrepl2 : cleanGo false (['.', '.'] :: ['.', '.'] :: List.replicate k2 ['.', '.']) cs =
                cleanGo false (([] : List (List Char)) ++ List.replicate (k2 + 2) ['.', '.']) cs := by
              simp [List.replicate_succ]
            rw [hrepl2]
            exact ih [] (k2 + 2) (by simp)
        | cons t n2 =>
          have ht : t ≠ ['.', '.'] := hn t (hnormal ▸ List.mem_cons_self t n2)
          rw [List.cons_append]
          dsimp only
          rw [if_neg ht]
          exact ih n2 k (fun x hx => hn x (hnormal ▸ List.mem_cons_of_mem t hx))
      · rw [if_neg h2]
        have : c :: (normal ++ List.replicate k ['.', '.']) =
            (c :: normal) ++ List.replicate k ['.', '.'] := rfl
        rw [this]
        refine ih (c :: normal) k ?_
        intro x hx
        rcases List.mem_cons.mp hx with rfl | hx2
        · exact h2
        · exact hn x hx2

theorem chIsAbs_true_iff (l : List Char) : chIsAbs l = true ↔ ∃ t, l = '/' :: t := by
  cases l with
  | nil => simp [chIsAbs]
  | cons c t =>
    simp only [chIsAbs, decide_eq_true_eq]
    constructor
    · intro h
      exact ⟨t, by rw [h]⟩
    · rintro ⟨t2, ht2⟩
      exact (List.cons.inj ht2).1

theorem renderPath_ne_nil (abs : Bool) (l : List (List Char))
    (hl : ∀ x ∈ l, x ≠ []) : renderPath abs l ≠ [] := by
  cases l with
  | nil =>
    cases abs <;> simp [renderPath]
  | cons c t =>
    cases abs with
    | true => simp [renderPath]
    | false =>
      simp only [renderPath, if_false, List.nil_append]
      cases t with
      | nil => exact hl c (by simp)
      | cons d t2 =>
        have : joinComps (c :: d :: t2) = c ++ '/' :: joinComps (d :: t2) := rfl
        rw [this]
        intro hcontra
        have := List.append_eq_nil.mp hcontra
        exact absurd this.2 (by simp)

theorem chIsAbs_append (a z : List Char) (ha : a ≠ []) :
    chIsAbs (a ++ z) = chIsAbs a := by
  cases a with
  | nil => exact absurd rfl ha
  | cons c t => rfl

theorem stringMk_eq_iff (l : List Char) (r : String) : String.mk l = r ↔ l = r.data := by
  constructor
  · intro h
    rw [← h]
  · intro h
    rw [h]

/-- The cleaned path of a successful `ResolvePaths` call: its components are
exactly the clean stack, and that stack contains no "..", ".", empty or
slash-bearing component. -/
theorem cleanChars_success (s : List Char)
    (hdot : cleanChars s ≠ ['.'])
    (hdd : cleanChars s ≠ ['.', '.'])
    (hpre : ¬ (['.', '.', '/'].isPrefixOf (cleanChars s) = true)) :
    (∀ x ∈ cleanGo (chIsAbs s) [] (pathComps s),
      x ≠ ['.', '.'] ∧ x ≠ ['.'] ∧ x ≠ [] ∧ '/' ∉ x) ∧
    pathComps (cleanChars s) = cleanGo (chIsAbs s) [] (pathComps s) := by
  have hmem := cleanGo_mem (chIsAbs s) (pathComps s) [] (by simp)
  have hnodot : ∀ x ∈ cleanGo (chIsAbs s) [] (pathComps s), x ≠ ['.'] :=
    fun x hx => (hmem x hx).2
  have hbasic : ∀ x ∈ cleanGo (chIsAbs s) [] (pathComps s), x ≠ [] ∧ '/' ∉ x := by
    intro x hx
    rcases (hmem x hx).1 with h | h | h
    · simp at h
    · exact pathComps_elem_spec s x h
    · subst h
      exact ⟨by simp, by simp⟩
  have hnodd : ∀ x ∈ cleanGo (chIsAbs s) [] (pathComps s), x ≠ ['.', '.'] := by
    cases habs : chIsAbs s with
    | true => exact cleanGo_abs_no_dotdot (pathComps s) [] (by simp)
    | false =>
      obtain ⟨normal2, k2, hn2, hsh⟩ := cleanGo_rel_shape (pathComps s) [] 0 (by simp)
      simp only [List.replicate_zero, List.nil_append, List.append_nil] at hsh
      cases k2 with
      | zero =>
        intro x hx
        rw [hsh] at hx
        simp only [List.replicate, List.nil_append] at hx
        exact hn2 x hx
      | succ k3 =>
        exfalso
        have hstack : cleanGo false [] (pathComps s) =
            ['.', '.'] :: (List.replicate k3 ['.', '.'] ++ normal2) := by
          rw [hsh, List.replicate_succ]
          simp
        have hrender : cleanChars s =
            renderPath false (['.', '.'] :: (List.replicate k3 ['.', '.'] ++ normal2)) := by
          unfold cleanChars
          rw [habs, hstack]
        cases hrest : List.replicate k3 ['.', '.'] ++ normal2 with
        | nil =>
          apply hdd
          rw [hrender, hrest]
          rfl
        | cons r t =>
          apply hpre
          rw [hrender, hrest]
          show List.isPrefixOf _ ((if false = true then ['/'] else []) ++
            joinComps (['.', '.'] :: r :: t)) = true
          have : joinComps (['.', '.'] :: r :: t) =
              '.' :: '.' :: '/' :: joinComps (r :: t) := rfl
          simp [this, List.isPrefixOf]
  refine ⟨fun x hx => ⟨hnodd x hx, hnodot x hx, (hbasic x hx).1, (hbasic x hx).2⟩, ?_⟩
  -- components of the rendered clean path
  cases hstk : cleanGo (chIsAbs s) [] (pathComps s) with
  | nil =>
    cases habs : chIsAbs s with
    | true =>
      unfold cleanChars
      rw [habs] at hstk ⊢
      rw [hstk]
      simp [renderPath, pathComps, splitSlash]
    | false =>
      exfalso
      apply hdot
      unfold cleanChars
      rw [habs] at hstk ⊢
      rw [hstk]
      rfl
  | cons c t =>
    unfold cleanChars
    rw [hstk]
    refine pathComps_renderPath _ _ ?_ (Or.inl (by simp))
    intro x hx
    rw [← hstk] at hx
    exact (hbasic x hx)

/-- Joining a well-formed absolute base with a well-formed cleaned relative
path concatenates their components. -/
theorem goJoin_comps (base clean : String)
    (hb_abs : chIsAbs base.data = true)
    (hb_wf : ∀ x ∈ pathComps base.data, x ≠ ['.'] ∧ x ≠ ['.', '.'])
    (hc_ne : clean.data ≠ [])
    (hc_wf : ∀ x ∈ pathComps clean.data, x ≠ ['.'] ∧ x ≠ ['.', '.']) :
    pathComps (goJoin base clean).data =
      pathComps base.data ++ pathComps clean.data := by
  obtain ⟨bt, hbt⟩ := (chIsAbs_true_iff base.data).mp hb_abs
  have hb_ne : base.data ≠ [] := by rw [hbt]; simp
  have hbne : base ≠ "" := by
    intro h
    rw [h] at hb_ne
    exact hb_ne rfl
  have hcne : clean ≠ "" := by
    intro h
    rw [h] at hc_ne
    exact hc_ne rfl
  have hjl : goJoin base clean =
      goClean (String.mk (base.data ++ '/' :: clean.data)) := by
    simp only [goJoin, goJoinList]
    rw [show List.filter (fun p => !decide (p = "")) [base, clean] = [base, clean] by
      simp [hbne, hcne]]
    rfl
  rw [hjl]
  show pathComps (cleanChars (base.data ++ '/' :: clean.data)) = _
  have habs2 : chIsAbs (base.data ++ '/' :: clean.data) = true := by
    rw [chIsAbs_append _ _ hb_ne, hb_abs]
  have hcomps : pathComps (base.data ++ '/' :: clean.data) =
      pathComps base.data ++ pathComps clean.data := pathComps_append _ _
  unfold cleanChars
  rw [habs2, hcomps]
  rw [cleanGo_no_dots_id true _ [] (by
    intro x hx
    rcases List.mem_append.mp hx with h | h
    · exact hb_wf x h
    · exact hc_wf x h)]
  simp only [List.reverse_nil, List.nil_append]
  refine pathComps_renderPath true _ ?_ (Or.inr rfl)
  intro x hx
  rcases List.mem_append.mp hx with h | h
  · exact pathComps_elem_spec base.data x h
  · exact pathComps_elem_spec clean.data x h

/-- C3 (confirmed): `ResolvePaths` fails exactly when the cleaned, rewritten
path is ".", "..", or starts with "../"; on success it returns that cleaned
path and its join under `base_dir`, whose components are the base
directory's components followed by the cleaned path's components, none of
which is ".." — the result never escapes `base_dir`. -/
theorem claim_C3_resolvePaths (cfg : Config) (rel : String)
    (hb_abs : chIsAbs cfg.baseDir.data = true)
    (hb_wf : ∀ x ∈ pathComps cfg.baseDir.data, x ≠ ['.'] ∧ x ≠ ['.', '.']) :
    ((∃ e, resolvePaths cfg rel = .error e) ↔
      (goClean (applyRewrites cfg.rewrites (strTrimPre rel "/")) = "." ∨
        goClean (applyRewrites cfg.rewrites (strTrimPre rel "/")) = ".." ∨
        strStartsWith (goClean (applyRewrites cfg.rewrites (strTrimPre rel "/")))
          "../" = true)) ∧
    (∀ c full, resolvePaths cfg rel = .ok (c, full) →
      c = goClean (applyRewrites cfg.rewrites (strTrimPre rel "/")) ∧
      full = goJoin cfg.baseDir c ∧
      pathComps full.data = pathComps cfg.baseDir.data ++ pathComps c.data ∧
      ∀ x ∈ pathComps c.data, x ≠ ['.', '.']) := by
  set clean := goClean (applyRewrites cfg.rewrites (strTrimPre rel "/")) with hcleandef
  have hres : resolvePaths cfg rel =
      (if clean = "." then Except.error "empty target path"
       else if strStartsWith clean "../" || decide (clean = "..") then
         Except.error "path attempts to escape base directory"
       else Except.ok (clean, goJoin cfg.baseDir clean)) := rfl
  constructor
  · by_cases h1 : clean = "."
    · rw [hres, if_pos h1]
      exact ⟨fun _ => Or.inl h1, fun _ => ⟨_, rfl⟩⟩
    · by_cases h2 : (strStartsWith clean "../" || decide (clean = "..")) = true
      · rw [hres, if_neg h1, if_pos h2]
        refine ⟨fun _ => ?_, fun _ => ⟨_, rfl⟩⟩
        rcases Bool.or_eq_true_iff.mp h2 with h | h
        · exact Or.inr (Or.inr h)
        · exact Or.inr (Or.inl (of_decide_eq_true h))
      · rw [hres, if_neg h1, if_neg h2]
        constructor
        · rintro ⟨e, he⟩
          exact absurd he (by simp)
        · intro hrhs
          exfalso
          rcases hrhs with h | h | h
          · exact h1 h
          · exact h2 (by simp [h])
          · exact h2 (by simp [h])
  · intro c full hok
    rw [hres] at hok
    by_cases h1 : clean = "."
    · rw [if_pos h1] at hok
      exact absurd hok (by simp)
    · by_cases h2 : (strStartsWith clean "../" || decide (clean = "..")) = true
      · rw [if_neg h1, if_pos h2] at hok
        exact absurd hok (by simp)
      · rw [if_neg h1, if_neg h2] at hok
        simp only [Except.ok.injEq, Prod.mk.injEq] at hok
        obtain ⟨hc1, hc2⟩ := hok
        subst hc1
        subst hc2
        refine ⟨rfl, rfl, ?_, ?_⟩
        all_goals {
          have h2s : strStartsWith clean "../" = false ∧ clean ≠ ".." := by
            rcases Bool.or_eq_false_iff.mp (Bool.not_eq_true _ |>.mp h2) with ⟨ha, hb⟩
            exact ⟨ha, fun hcontra => by simp [hcontra] at hb⟩
          have hdata : clean.data =
              cleanChars (applyRewrites cfg.rewrites (strTrimPre rel "/")).data := rfl
          have hsucc := cleanChars_success
            (applyRewrites cfg.rewrites (strTrimPre rel "/")).data
            (by
              intro hcontra
              exact h1 ((stringMk_eq_iff _ _).mpr (hdata ▸ hcontra)))
            (by
              intro hcontra
              exact h2s.2 ((stringMk_eq_iff _ _).mpr (hdata ▸ hcontra)))
            (by
              intro hcontra
              have : strStartsWith clean "../" = true := by
                show List.isPrefixOf "../".data clean.data = true
                rw [hdata]
                exact hcontra
              rw [h2s.1] at this
              exact absurd this (by simp))
          have hcwf : ∀ x ∈ pathComps clean.data, x ≠ ['.'] ∧ x ≠ ['.', '.'] := by
            intro x hx
            rw [hdata, hsucc.2] at hx
            have := hsucc.1 x hx
            exact ⟨this.2.1, this.1⟩
          have hcne : clean.data ≠ [] := by
            rw [hdata]
            unfold cleanChars
            apply renderPath_ne_nil
            intro x hx
            exact (hsucc.1 x hx).2.2.1
          first
          | exact goJoin_comps cfg.baseDir clean hb_abs hb_wf hcne hcwf
          | exact fun x hx => (hcwf x hx).2
        }

/-! ## C6: conditional responses -/

theorem matchETagGo_iff (header etag : String) :
    matchETagGo header etag = true ↔
      header ≠ "" ∧ ∃ c ∈ splitAll ',' header.data,
        strTrimSpace (String.mk c) = etag := by
  unfold matchETagGo
  by_cases hh : header = ""
  · simp [hh]
  · rw [if_neg hh]
    constructor
    · intro hany
      obtain ⟨x, hx, hpx⟩ := List.any_eq_true.mp hany
      obtain ⟨c, hc, rfl⟩ := List.mem_map.mp hx
      exact ⟨hh, c, hc, by simpa using hpx⟩
    · rintro ⟨-, c, hc, hcq⟩
      exact List.any_eq_true.mpr
        ⟨String.mk c, List.mem_map_of_mem String.mk hc, by simpa using hcq⟩

/-- C6 (confirmed): serving from cache evaluates conditionals in order.
A matching If-None-Match candidate yields 304 with `Cache-Control`,
`ETag`, `Last-Modified` and no body, regardless of If-Modified-Since;
otherwise a parsed If-Modified-Since no earlier than the cache mtime
yields 304 with the same headers; otherwise the payload is served with
status 200, `Content-Type`, `Content-Length` and all caching headers. -/
theorem claim_C6_conditional (ctx : ServeCtx) (fs : FS) (cachePath : String)
    (format : ImgFormat) (inm ims : String) (info : FileData)
    (hstat : fsStat fs cachePath = some info) :
    ((inm ≠ "" ∧ ∃ c ∈ splitAll ',' inm.data,
        strTrimSpace (String.mk c) = ctx.etagOf info.content) →
      tryServeFromCache ctx fs cachePath format inm ims =
        some ⟨304,
          [("Cache-Control", cacheControlImmutable),
            ("ETag", ctx.etagOf info.content),
            ("Last-Modified", ctx.fmtTime info.mtime)], none⟩) ∧
    (¬ (inm ≠ "" ∧ ∃ c ∈ splitAll ',' inm.data,
        strTrimSpace (String.mk c) = ctx.etagOf info.content) →
      ∀ t, ims ≠ "" → ctx.parseTime ims = some t → info.mtime ≤ t →
      tryServeFromCache ctx fs cachePath format inm ims =
        some ⟨304,
          [("Cache-Control", cacheControlImmutable),
            ("ETag", ctx.etagOf info.content),
            ("Last-Modified", ctx.fmtTime info.mtime)], none⟩) ∧
    (¬ (inm ≠ "" ∧ ∃ c ∈ splitAll ',' inm.data,
        strTrimSpace (String.mk c) = ctx.etagOf info.content) →
      (ims = "" ∨ ctx.parseTime ims = none ∨
        ∃ t, ctx.parseTime ims = some t ∧ t < info.mtime) →
      tryServeFromCache ctx fs cachePath format inm ims =
        some ⟨200,
          [("Content-Type", contentTypeOf format),
            ("Cache-Control", cacheControlImmutable),
            ("ETag", ctx.etagOf info.content),
            ("Last-Modified", ctx.fmtTime info.mtime),
            ("Content-Length", toString info.content.length)],
          some info.content⟩) := by
  refine ⟨?_, ?_, ?_⟩
  · intro hA
    have hm : matchETagGo inm (ctx.etagOf info.content) = true :=
      (matchETagGo_iff inm (ctx.etagOf info.content)).mpr hA
    simp only [tryServeFromCache, hstat, hm, if_true]
  · intro hA t hims hparse hle
    have hm : matchETagGo inm (ctx.etagOf info.content) = false := by
      cases hb : matchETagGo inm (ctx.etagOf info.content)
      · rfl
      · exact absurd ((matchETagGo_iff inm (ctx.etagOf info.content)).mp hb) hA
    simp only [tryServeFromCache, hstat, hm, Bool.false_eq_true, if_false,
      if_neg hims, hparse]
    rw [if_neg (by omega)]
  · intro hA hcase
    have hm : matchETagGo inm (ctx.etagOf info.content) = false := by
      cases hb : matchETagGo inm (ctx.etagOf info.content)
      · rfl
      · exact absurd ((matchETagGo_iff inm (ctx.etagOf info.content)).mp hb) hA
    rcases hcase with hE | hE | ⟨t, hp, hlt⟩
    · simp only [tryServeFromCache, hstat, hm, Bool.false_eq_true, if_false, hE, if_true]
    · by_cases hims : ims = ""
      · simp only [tryServeFromCache, hstat, hm, Bool.false_eq_true, if_false, hims,
          if_true]
      · simp only [tryServeFromCache, hstat, hm, Bool.false_eq_true, if_false,
          if_neg hims, hE]
    · by_cases hims : ims = ""
      · simp only [tryServeFromCache, hstat, hm, Bool.false_eq_true, if_false, hims,
          if_true]
      · simp only [tryServeFromCache, hstat, hm, Bool.false_eq_true, if_false,
          if_neg hims, hp]
        rw [if_pos (by omega)]

/-- Witness for C6: a matching If-None-Match candidate produces the 304. -/
theorem claim_C6_witness :
    tryServeFromCache ⟨fun _ => "E", fun _ => none, fun _ => "LM"⟩
        [("c", ⟨[1], 5⟩)] "c" ImgFormat.png "E" "" =
      some ⟨304,
        [("Cache-Control", cacheControlImmutable), ("ETag", "E"),
          ("Last-Modified", "LM")], none⟩ :=
  (claim_C6_conditional ⟨fun _ => "E", fun _ => none, fun _ => "LM"⟩
      [("c", ⟨[1], 5⟩)] "c" ImgFormat.png "E" "" ⟨[1], 5⟩ rfl).1
    ⟨by decide, ['E'], by decide, by decide⟩

/-- Witness for C5 amended: memory tier enabled with an empty hot-set of
capacity 10; writing a two-byte payload marks the hot-set. -/
theorem claim_C5_witness :
    ∃ h2, (writeCache [] 5 ⟨some ⟨100, 100, 0, []⟩, some ⟨10, 0, []⟩⟩
        "/cache/1x1/a.jpg" [4, 5]).2.hot = some h2 ∧
      hotFind h2 "/cache/1x1/a.jpg" = some ⟨"/cache/1x1/a.jpg", (2 : Int)⟩ ∧
      (hotProtect h2 "/cache/1x1/a.jpg" (2 : Int)).1 = true :=
  (claim_C5_write_hot_amended [] 5 ⟨some ⟨100, 100, 0, []⟩, some ⟨10, 0, []⟩⟩
      "/cache/1x1/a.jpg" [4, 5]).2 ⟨100, 100, 0, []⟩ ⟨10, 0, []⟩ rfl rfl
    (by simp [hotKeys]) (by simp [sumHotSizes]) (by decide) (by decide)

/-- Witness for C3: "img/../a.png" resolves under base "/base" to
"a.png" and "/base/a.png", whose components extend the base's. -/
theorem claim_C3_witness :
    "a.png" = goClean (applyRewrites cfgPlain.rewrites (strTrimPre "img/../a.png" "/")) ∧
    "/base/a.png" = goJoin cfgPlain.baseDir "a.png" ∧
    pathComps "/base/a.png".data =
      pathComps cfgPlain.baseDir.data ++ pathComps "a.png".data ∧
    ∀ x ∈ pathComps "a.png".data, x ≠ ['.', '.'] :=
  (claim_C3_resolvePaths cfgPlain "img/../a.png" (by decide) (by decide)).2
    "a.png" "/base/a.png" rfl

/-! ## Sweep lemmas for C7 and C8 -/

theorem find?_none_sublist {α : Type} (p : α → Bool) {l l2 : List α}
    (hsub : l2.Sublist l) (h : l.find? p = none) : l2.find? p = none := by
  rw [List.find?_eq_none] at h ⊢
  exact fun x hx => h x (hsub.subset hx)

theorem hotEnforceGo_sublist :
    ∀ (fuel : Nat) (h : HotCache), (hotEnforceGo fuel h).entries.Sublist h.entries := by
  intro fuel
  induction fuel with
  | zero => intro h; exact List.Sublist.refl _
  | succ f ih =>
    intro h
    unfold hotEnforceGo
    split
    · split
      · exact List.Sublist.refl _
      · refine (ih _).trans ?_
        exact List.filter_sublist _
    · exact List.Sublist.refl _

theorem hotFind_hotRemove_self (h : HotCache) (k : String) :
    hotFind (hotRemove h k) k = none := by
  unfold hotRemove
  cases hf : hotFind h k with
  | none => exact hf
  | some e =>
    simp only [hotFind, List.find?_eq_none, decide_eq_true_eq]
    intro x hx
    rcases List.mem_filter.mp hx with ⟨-, hpred⟩
    simpa using hpred

theorem hotFind_hotRemove_none (h : HotCache) (k p : String)
    (habs : hotFind h p = none) : hotFind (hotRemove h k) p = none := by
  unfold hotRemove
  cases hf : hotFind h k with
  | none => exact habs
  | some e => exact find?_none_sublist _ (List.filter_sublist _) habs

theorem memFind_memRemove_none (c : MemCache) (k p : String)
    (habs : memFind c p = none) : memFind (memRemove c k) p = none := by
  unfold memRemove memRemoveElement
  cases hf : memFind c k with
  | none => exact habs
  | some e => exact find?_none_sublist _ (List.filter_sublist _) habs

theorem hotFind_hotProtect_none (h : HotCache) (k : String) (s : Int) (p : String)
    (habs : hotFind h p = none) : hotFind (hotProtect h k s).2 p = none := by
  unfold hotProtect
  by_cases hc : (decide (h.limit ≤ 0) || decide (s ≤ 0)) = true
  · rw [if_pos hc]
    exact habs
  · rw [if_neg hc]
    cases hf : hotFind h k with
    | none => exact habs
    | some e =>
      have hkp : ¬ k = p := by
        intro hkp
        rw [hkp] at hf
        rw [hf] at habs
        exact absurd habs (by simp)
      show List.find? _ (hotEnforceGo _ _).entries = none
      refine find?_none_sublist _ (hotEnforceGo_sublist _ _) ?_
      show List.find? _ (⟨k, s⟩ :: h.entries.filter (fun x => !(x.key = k))) = none
      rw [List.find?_cons_of_neg _ (by simpa using hkp)]
      exact find?_none_sublist _ (List.filter_sublist _) habs

theorem shouldKeepHot_removed_memory (st : SweepState) (p : String) (s : Int) :
    (shouldKeepHot st p s).2.removed = st.removed ∧
    (shouldKeepHot st p s).2.memory = st.memory := by
  unfold shouldKeepHot
  cases hh : st.hot with
  | none => exact ⟨rfl, rfl⟩
  | some h =>
    dsimp only
    by_cases hs : s ≤ 0
    · rw [if_pos hs]
      exact ⟨rfl, rfl⟩
    · rw [if_neg hs]
      rcases hp : hotProtect h p s with ⟨b, h2⟩
      cases b
      · exact ⟨rfl, rfl⟩
      · exact ⟨rfl, rfl⟩

theorem shouldKeepHot_hotAbsent (st : SweepState) (p q : String) (s : Int)
    (habs : hotAbsent st.hot q) : hotAbsent (shouldKeepHot st p s).2.hot q := by
  unfold shouldKeepHot
  cases hh : st.hot with
  | none => simpa [hh] using habs
  | some h =>
    have hq : hotFind h q = none := habs h hh
    dsimp only
    by_cases hs : s ≤ 0
    · rw [if_pos hs]
      simpa [hh] using habs
    · rw [if_neg hs]
      rcases hp : hotProtect h p s with ⟨b, h2⟩
      have hq2 : hotFind h2 q = none := by
        have := hotFind_hotProtect_none h p s q hq
        rwa [hp] at this
      cases b
      · intro h3 hh3
        simp only [] at hh3
        rw [← Option.some_inj.mp hh3]
        exact hq2
      · intro h3 hh3
        simp only [] at hh3
        rw [← Option.some_inj.mp hh3]
        exact hq2

/-- One visit preserves removal and the absence of a key in both tiers. -/
theorem cleanupVisit_preserves (cfg : Config) (now : Int) (ofs : FS)
    (st : SweepState) (f : String × FileData) (p : String)
    (hrem : p ∈ st.removed) (hmem : memAbsent st.memory p)
    (hhot : hotAbsent st.hot p) :
    p ∈ (cleanupVisit cfg now ofs st f).removed ∧
    memAbsent (cleanupVisit cfg now ofs st f).memory p ∧
    hotAbsent (cleanupVisit cfg now ofs st f).hot p := by
  have hsweep : ∀ st2 sz, p ∈ st2.removed → memAbsent st2.memory p →
      hotAbsent st2.hot p →
      p ∈ (sweepRemove st2 f.1 sz).removed ∧
      memAbsent (sweepRemove st2 f.1 sz).memory p ∧
      hotAbsent (sweepRemove st2 f.1 sz).hot p := by
    intro st2 sz h1 h2 h3
    refine ⟨List.mem_cons_of_mem _ h1, ?_, ?_⟩
    · intro mc hmc
      unfold sweepRemove at hmc
      cases hm2 : st2.memory with
      | none => rw [hm2] at hmc; exact absurd hmc (by simp)
      | some mc0 =>
        rw [hm2] at hmc
        simp only [Option.map_some] at hmc
        rw [← Option.some_inj.mp hmc]
        exact memFind_memRemove_none mc0 f.1 p (h2 mc0 hm2)
    · intro hcache hhc
      unfold sweepRemove at hhc
      cases hh2 : st2.hot with
      | none => rw [hh2] at hhc; exact absurd hhc (by simp)
      | some h0 =>
        rw [hh2] at hhc
        simp only [Option.map_some] at hhc
        rw [← Option.some_inj.mp hhc]
        exact hotFind_hotRemove_none h0 f.1 p (h3 h0 hh2)
  unfold cleanupVisit
  by_cases ha : (!(isAllowedCacheExt f.1)) = true
  · rw [if_pos ha]
    exact ⟨hrem, hmem, hhot⟩
  · rw [if_neg ha]
    dsimp only
    by_cases hexp : (decide (cfg.ttl > 0) && decide (now - f.2.mtime > cfg.ttl)) = true
    · rw [if_pos hexp]
      have hkeep := shouldKeepHot_removed_memory st f.1 (f.2.content.length : Int)
      have hkeeph := shouldKeepHot_hotAbsent st f.1 p (f.2.content.length : Int) hhot
      rcases hks : shouldKeepHot st f.1 (f.2.content.length : Int) with ⟨b, st2⟩
      rw [hks] at hkeep hkeeph
      cases b
      · exact hsweep st2 _ (hkeep.1 ▸ hrem) (fun mc hmc => hmem mc (hkeep.2 ▸ hmc)) hkeeph
      · exact ⟨hkeep.1 ▸ hrem, fun mc hmc => hmem mc (hkeep.2 ▸ hmc), hkeeph⟩
    · rw [if_neg hexp]
      rcases hsp : splitCachePath cfg.cacheDir f.1 with - | ⟨geo, rel⟩
      · exact ⟨hrem, hmem, hhot⟩
      · dsimp only
        cases hlo : lookupOriginalInfo ofs cfg.baseDir rel with
        | none => exact hsweep st _ hrem hmem hhot
        | some orig =>
          dsimp only
          by_cases hout : orig.mtime > f.2.mtime
          · rw [if_pos hout]
            exact hsweep st _ hrem hmem hhot
          · rw [if_neg hout]
            exact ⟨hrem, hmem, hhot⟩

/-- A visit whose file path differs from `p` does not newly remove `p`. -/
theorem cleanupVisit_not_removed (cfg : Config) (now : Int) (ofs : FS)
    (st : SweepState) (f : String × FileData) (p : String)
    (hne : f.1 ≠ p) (hrem : p ∉ st.removed) :
    p ∉ (cleanupVisit cfg now ofs st f).removed := by
  have hsweep : ∀ st2 sz, p ∉ st2.removed → p ∉ (sweepRemove st2 f.1 sz).removed := by
    intro st2 sz h1 hcontra
    rcases List.mem_cons.mp hcontra with h | h
    · exact hne h.symm
    · exact h1 h
  unfold cleanupVisit
  by_cases ha : (!(isAllowedCacheExt f.1)) = true
  · rw [if_pos ha]
    exact hrem
  · rw [if_neg ha]
    dsimp only
    by_cases hexp : (decide (cfg.ttl > 0) && decide (now - f.2.mtime > cfg.ttl)) = true
    · rw [if_pos hexp]
      have hkeep := shouldKeepHot_removed_memory st f.1 (f.2.content.length : Int)
      rcases hks : shouldKeepHot st f.1 (f.2.content.length : Int) with ⟨b, st2⟩
      rw [hks] at hkeep
      cases b
      · exact hsweep st2 _ (hkeep.1 ▸ hrem)
      · exact hkeep.1 ▸ hrem
    · rw [if_neg hexp]
      rcases hsp : splitCachePath cfg.cacheDir f.1 with - | ⟨geo, rel⟩
      · exact hrem
      · dsimp only
        cases hlo : lookupOriginalInfo ofs cfg.baseDir rel with
        | none => exact hsweep st _ hrem
        | some orig =>
          dsimp only
          by_cases hout : orig.mtime > f.2.mtime
          · rw [if_pos hout]
            exact hsweep st _ hrem
          · rw [if_neg hout]
            exact hrem

theorem cleanupFold_preserves (cfg : Config) (now : Int) (ofs : FS) :
    ∀ (fl : List (String × FileData)) (st : SweepState) (p : String),
      p ∈ st.removed → memAbsent st.memory p → hotAbsent st.hot p →
      p ∈ (fl.foldl (cleanupVisit cfg now ofs) st).removed ∧
      memAbsent (fl.foldl (cleanupVisit cfg now ofs) st).memory p ∧
      hotAbsent (fl.foldl (cleanupVisit cfg now ofs) st).hot p := by
  intro fl
  induction fl with
  | nil => intro st p h1 h2 h3; exact ⟨h1, h2, h3⟩
  | cons f rest ih =>
    intro st p h1 h2 h3
    have hstep := cleanupVisit_preserves cfg now ofs st f p h1 h2 h3
    exact ih _ p hstep.1 hstep.2.1 hstep.2.2

theorem cleanupFold_not_removed (cfg : Config) (now : Int) (ofs : FS) :
    ∀ (fl : List (String × FileData)) (st : SweepState) (p : String),
      p ∉ st.removed → (∀ f ∈ fl, f.1 ≠ p) →
      p ∉ (fl.foldl (cleanupVisit cfg now ofs) st).removed := by
  intro fl
  induction fl with
  | nil => intro st p h1 _; exact h1
  | cons f rest ih =>
    intro st p h1 h2
    exact ih _ p (cleanupVisit_not_removed cfg now ofs st f p (h2 f (by simp)) h1)
      (fun g hg => h2 g (List.mem_cons_of_mem f hg))

theorem hotProtect_front (h : HotCache) (path : String) (size : Int)
    (hnd : (hotKeys h.entries).Nodup) (hsum : h.used = sumHotSizes h.entries)
    (hfit : size ≤ h.limit)
    (htrue : (hotProtect h path size).1 = true) :
    ∃ rest2, (hotProtect h path size).2.entries = ⟨path, size⟩ :: rest2 := by
  unfold hotProtect at htrue ⊢
  by_cases hc : (decide (h.limit ≤ 0) || decide (size ≤ 0)) = true
  · rw [if_pos hc] at htrue
    exact absurd htrue (by simp)
  · rw [if_neg hc] at htrue ⊢
    cases hfind : hotFind h path with
    | none =>
      rw [hfind] at htrue
      exact absurd htrue (by simp)
    | some e =>
      dsimp only
      unfold hotEnforce
      have hfind2 : h.entries.find? (fun x => x.key = path) = some e := hfind
      have hsumf := sumHotSizes_find h.entries path e hnd hfind2
      have hkf := hotEnforceGo_keeps_front
        ((⟨path, size⟩ :: h.entries.filter (fun x => !(x.key = path))).length)
        ⟨h.limit, h.used + size - e.size,
          ⟨path, size⟩ :: h.entries.filter (fun x => !(x.key = path))⟩
        ⟨path, size⟩ (h.entries.filter (fun x => !(x.key = path)))
        rfl ?_ ?_ ?_
      · obtain ⟨rest2, hrest2⟩ := hkf
        exact ⟨rest2, by simpa using hrest2⟩
      · show (path :: hotKeys (h.entries.filter (fun x => !(x.key = path)))).Nodup
        refine List.nodup_cons.mpr ⟨?_, ?_⟩
        · intro hmem2
          obtain ⟨x, hx, hxk⟩ := List.mem_map.mp hmem2
          have hpf := List.of_mem_filter hx
          simp only [Bool.not_eq_true', decide_eq_false_iff_not] at hpf
          exact hpf hxk
        · have hsub : (h.entries.filter (fun x => !(x.key = path))).Sublist h.entries :=
            List.filter_sublist _
          exact ((hsub.map HotEntry.key).nodup hnd)
      · show h.used + size - e.size = sumHotSizes (⟨path, size⟩ :: _)
        rw [sumHotSizes_cons]
        dsimp only
        rw [hsum, hsumf]
        omega
      · show (⟨path, size⟩ : HotEntry).size ≤ h.limit
        dsimp only
        exact hfit

theorem nodup_paths_split (files : List (String × FileData)) (i : Nat)
    (hi : i < files.length) (hnd : (files.map Prod.fst).Nodup) :
    (∀ f ∈ files.take i, f.1 ≠ (files.get ⟨i, hi⟩).1) ∧
    (∀ f ∈ files.drop (i + 1), f.1 ≠ (files.get ⟨i, hi⟩).1) := by
  have hdecomp : files = files.take i ++ files.get ⟨i, hi⟩ :: files.drop (i + 1) := by
    conv_lhs => rw [← List.take_append_drop i files]
    congr 1
    rw [List.get_eq_getElem]
    exact List.drop_eq_getElem_cons hi
  have hmap : (files.map Prod.fst).Nodup →
      ((files.take i).map Prod.fst ++
        (files.get ⟨i, hi⟩).1 :: (files.drop (i + 1)).map Prod.fst).Nodup := by
    intro hn
    have : files.map Prod.fst =
        (files.take i).map Prod.fst ++
          (files.get ⟨i, hi⟩).1 :: (files.drop (i + 1)).map Prod.fst := by
      conv_lhs => rw [hdecomp]
      rw [List.map_append, List.map_cons]
    rwa [this] at hn
  rcases List.nodup_append.mp (hmap hnd) with ⟨h1, h2, hdisj⟩
  constructor
  · intro f hf heq
    exact hdisj (List.mem_map_of_mem Prod.fst hf)
      (by rw [heq]; exact List.mem_cons_self _ _)
  · intro f hf heq
    have := (List.nodup_cons.mp h2).1
    exact this (by rw [← heq]; exact List.mem_map_of_mem Prod.fst hf)

/-- The visit of a TTL-expired cache file with an allowed extension. -/
theorem cleanupVisit_expired (cfg : Config) (now : Int) (ofs : FS) (st : SweepState)
    (f : String × FileData) (hallow : isAllowedCacheExt f.1 = true)
    (httl : 0 < cfg.ttl) (hexp : cfg.ttl < now - f.2.mtime) :
    cleanupVisit cfg now ofs st f =
      (match shouldKeepHot st f.1 (f.2.content.length : Int) with
       | (true, st2) => st2
       | (false, st2) => sweepRemove st2 f.1 (f.2.content.length : Int)) := by
  unfold cleanupVisit
  rw [if_neg (by simp [hallow])]
  dsimp only
  rw [if_pos (by
    simp only [Bool.and_eq_true, decide_eq_true_eq, gt_iff_lt]
    exact ⟨httl, hexp⟩)]

/-- C7 (confirmed): during a sweep with TTL enabled, a TTL-expired cache
file with an allowed extension is removed — and its memory and hot-set
entries dropped — unless the hot-set protects it at its visit, in which
case the file survives the pass and (for a well-formed hot LRU with room
for it) its hot-set entry is moved to the most-recently-used position. -/
theorem claim_C7_ttl_sweep (cfg : Config) (now : Int) (ofs : FS)
    (files : List (String × FileData)) (m : Manager) (i : Nat) (hi : i < files.length)
    (hnd : (files.map Prod.fst).Nodup)
    (hallow : isAllowedCacheExt (files.get ⟨i, hi⟩).1 = true)
    (httl : 0 < cfg.ttl)
    (hexp : cfg.ttl < now - (files.get ⟨i, hi⟩).2.mtime) :
    ((shouldKeepHot ((files.take i).foldl (cleanupVisit cfg now ofs) (sweepInit m))
        (files.get ⟨i, hi⟩).1 ((files.get ⟨i, hi⟩).2.content.length : Int)).1 = false →
      (files.get ⟨i, hi⟩).1 ∈ (cleanupRun cfg now ofs files m).removed ∧
      memAbsent (cleanupRun cfg now ofs files m).memory (files.get ⟨i, hi⟩).1 ∧
      hotAbsent (cleanupRun cfg now ofs files m).hot (files.get ⟨i, hi⟩).1) ∧
    ((shouldKeepHot ((files.take i).foldl (cleanupVisit cfg now ofs) (sweepInit m))
        (files.get ⟨i, hi⟩).1 ((files.get ⟨i, hi⟩).2.content.length : Int)).1 = true →
      (files.get ⟨i, hi⟩).1 ∉ (cleanupRun cfg now ofs files m).removed ∧
      ∀ h, ((files.take i).foldl (cleanupVisit cfg now ofs) (sweepInit m)).hot = some h →
        (hotKeys h.entries).Nodup → h.used = sumHotSizes h.entries →
        ((files.get ⟨i, hi⟩).2.content.length : Int) ≤ h.limit →
        ∃ rest2 h2,
          (cleanupVisit cfg now ofs
              ((files.take i).foldl (cleanupVisit cfg now ofs) (sweepInit m))
              (files.get ⟨i, hi⟩)).hot = some h2 ∧
          h2.entries = ⟨(files.get ⟨i, hi⟩).1,
            ((files.get ⟨i, hi⟩).2.content.length : Int)⟩ :: rest2) := by
  have hsplit := nodup_paths_split files i hi hnd
  have hdecomp : files = files.take i ++ files.get ⟨i, hi⟩ :: files.drop (i + 1) := by
    conv_lhs => rw [← List.take_append_drop i files]
    congr 1
    rw [List.get_eq_getElem]
    exact List.drop_eq_getElem_cons hi
  set p := (files.get ⟨i, hi⟩).1 with hp
  set sz := ((files.get ⟨i, hi⟩).2.content.length : Int) with hsz
  set stPre := (files.take i).foldl (cleanupVisit cfg now ofs) (sweepInit m) with hstPre
  have hpre_not : p ∉ stPre.removed := by
    rw [hstPre]
    exact cleanupFold_not_removed cfg now ofs _ _ p (by simp [sweepInit]) hsplit.1
  have hvisit := cleanupVisit_expired cfg now ofs stPre (files.get ⟨i, hi⟩)
    hallow httl hexp
  have hrun : cleanupRun cfg now ofs files m =
      (files.drop (i + 1)).foldl (cleanupVisit cfg now ofs)
        (cleanupVisit cfg now ofs stPre (files.get ⟨i, hi⟩)) := by
    unfold cleanupRun
    conv_lhs => rw [hdecomp]
    rw [List.foldl_append]
    rfl
  constructor
  · intro hkeepF
    rcases hks : shouldKeepHot stPre p sz with ⟨b, st2⟩
    have hb : b = false := by
      rw [hks] at hkeepF
      exact hkeepF
    subst hb
    have hvisit2 : cleanupVisit cfg now ofs stPre (files.get ⟨i, hi⟩) =
        sweepRemove st2 p sz := by
      rw [hvisit, hks]
    have h1 : p ∈ (sweepRemove st2 p sz).removed := List.mem_cons_self _ _
    have h2 : memAbsent (sweepRemove st2 p sz).memory p := by
      intro mc hmc
      unfold sweepRemove at hmc
      cases hm2 : st2.memory with
      | none => rw [hm2] at hmc; exact absurd hmc (by simp)
      | some mc0 =>
        rw [hm2] at hmc
        simp only [Option.map_some] at hmc
        rw [← Option.some_inj.mp hmc]
        exact memFind_memRemove mc0 p
    have h3 : hotAbsent (sweepRemove st2 p sz).hot p := by
      intro h0 hh0
      unfold sweepRemove at hh0
      cases hh2 : st2.hot with
      | none => rw [hh2] at hh0; exact absurd hh0 (by simp)
      | some hx =>
        rw [hh2] at hh0
        simp only [Option.map_some] at hh0
        rw [← Option.some_inj.mp hh0]
        exact hotFind_hotRemove_self hx p
    rw [hrun, hvisit2]
    exact cleanupFold_preserves cfg now ofs _ _ p h1 h2 h3
  · intro hkeepT
    rcases hks : shouldKeepHot stPre p sz with ⟨b, st2⟩
    have hb : b = true := by
      rw [hks] at hkeepT
      exact hkeepT
    subst hb
    have hvisit2 : cleanupVisit cfg now ofs stPre (files.get ⟨i, hi⟩) = st2 := by
      rw [hvisit, hks]
    have hst2 := shouldKeepHot_removed_memory stPre p sz
    rw [hks] at hst2
    constructor
    · rw [hrun, hvisit2]
      exact cleanupFold_not_removed cfg now ofs _ _ p (hst2.1 ▸ hpre_not) hsplit.2
    · intro h hh hhnd hhsum hhfit
      have hdetail : ∃ h2, hotProtect h p sz = (true, h2) ∧ st2.hot = some h2 := by
        unfold shouldKeepHot at hks
        rw [hh] at hks
        dsimp only at hks
        by_cases hszle : sz ≤ 0
        · rw [if_pos hszle] at hks
          exact absurd (congrArg Prod.fst hks) (by simp)
        · rw [if_neg hszle] at hks
          rcases hp2 : hotProtect h p sz with ⟨b2, h2⟩
          rw [hp2] at hks
          cases b2
          · exact absurd (congrArg Prod.fst hks) (by simp)
          · refine ⟨h2, rfl, ?_⟩
            have := congrArg Prod.snd hks
            simp only [] at this
            rw [← this]
      obtain ⟨h2x, hp2, hst2hot⟩ := hdetail
      have hfront := hotProtect_front h p sz hhnd hhsum hhfit (by rw [hp2])
      rw [hp2] at hfront
      obtain ⟨rest2, hrest2⟩ := hfront
      exact ⟨rest2, h2x, by rw [hvisit2]; exact hst2hot, by simpa using hrest2⟩

/-- Witness for C7: a single expired file, hot-set disabled — the sweep
removes it and both tiers end without it. -/
theorem claim_C7_witness :
    "/cache/1x1/old.jpg" ∈
      (cleanupRun cfgTTL 200 [] [("/cache/1x1/old.jpg", ⟨[1], 0⟩)] ⟨none, none⟩).removed ∧
    memAbsent
      (cleanupRun cfgTTL 200 [] [("/cache/1x1/old.jpg", ⟨[1], 0⟩)] ⟨none, none⟩).memory
      "/cache/1x1/old.jpg" ∧
    hotAbsent
      (cleanupRun cfgTTL 200 [] [("/cache/1x1/old.jpg", ⟨[1], 0⟩)] ⟨none, none⟩).hot
      "/cache/1x1/old.jpg" :=
  (claim_C7_ttl_sweep cfgTTL 200 [] [("/cache/1x1/old.jpg", ⟨[1], 0⟩)] ⟨none, none⟩
      0 (by decide) (by simp) (by decide) (by decide) (by decide)).1 rfl

/-- The visit of a non-expired cache file whose path splits under the
cache root. -/
theorem cleanupVisit_not_expired (cfg : Config) (now : Int) (ofs : FS)
    (st : SweepState) (f : String × FileData)
    (hallow : isAllowedCacheExt f.1 = true)
    (hnexp : ¬ (0 < cfg.ttl ∧ cfg.ttl < now - f.2.mtime))
    (geo rel : String) (hsp : splitCachePath cfg.cacheDir f.1 = some (geo, rel)) :
    cleanupVisit cfg now ofs st f =
      (match lookupOriginalInfo ofs cfg.baseDir rel with
       | none => sweepRemove st f.1 (f.2.content.length : Int)
       | some orig =>
         if orig.mtime > f.2.mtime then sweepRemove st f.1 (f.2.content.length : Int)
         else st) := by
  unfold cleanupVisit
  rw [if_neg (by simp [hallow])]
  dsimp only
  rw [if_neg (by
    simp only [Bool.and_eq_true, decide_eq_true_eq, gt_iff_lt]
    exact hnexp)]
  rw [hsp]

/-- C8 (confirmed): during a sweep, a non-TTL-expired cache file with an
allowed extension whose path splits into a geometry and a relative path is
removed as an orphan when neither `base_dir/rel` nor the
last-extension-stripped fallback exists; it is kept when the fallback base
exists and is not newer than the cache file; and it is removed as outdated
when the resolved original's mtime is strictly after the cache mtime. -/
theorem claim_C8_orphan_sweep (cfg : Config) (now : Int) (ofs : FS)
    (files : List (String × FileData)) (m : Manager) (i : Nat) (hi : i < files.length)
    (hnd : (files.map Prod.fst).Nodup)
    (hallow : isAllowedCacheExt (files.get ⟨i, hi⟩).1 = true)
    (hnexp : ¬ (0 < cfg.ttl ∧ cfg.ttl < now - (files.get ⟨i, hi⟩).2.mtime))
    (geo rel : String)
    (hsp : splitCachePath cfg.cacheDir (files.get ⟨i, hi⟩).1 = some (geo, rel)) :
    (lookupOriginalInfo ofs cfg.baseDir rel = none →
      (files.get ⟨i, hi⟩).1 ∈ (cleanupRun cfg now ofs files m).removed) ∧
    (∀ fb, fsStat ofs (goJoin cfg.baseDir rel) = none →
      strTrimSuffix rel (goExt rel) ≠ rel →
      fsStat ofs (goJoin cfg.baseDir (strTrimSuffix rel (goExt rel))) = some fb →
      fb.mtime ≤ (files.get ⟨i, hi⟩).2.mtime →
      (files.get ⟨i, hi⟩).1 ∉ (cleanupRun cfg now ofs files m).removed) ∧
    (∀ orig, lookupOriginalInfo ofs cfg.baseDir rel = some orig →
      (files.get ⟨i, hi⟩).2.mtime < orig.mtime →
      (files.get ⟨i, hi⟩).1 ∈ (cleanupRun cfg now ofs files m).removed) := by
  have hsplit := nodup_paths_split files i hi hnd
  have hdecomp : files = files.take i ++ files.get ⟨i, hi⟩ :: files.drop (i + 1) := by
    conv_lhs => rw [← List.take_append_drop i files]
    congr 1
    rw [List.get_eq_getElem]
    exact List.drop_eq_getElem_cons hi
  set p := (files.get ⟨i, hi⟩).1 with hp
  set sz := ((files.get ⟨i, hi⟩).2.content.length : Int) with hsz
  set stPre := (files.take i).foldl (cleanupVisit cfg now ofs) (sweepInit m) with hstPre
  have hpre_not : p ∉ stPre.removed := by
    rw [hstPre]
    exact cleanupFold_not_removed cfg now ofs _ _ p (by simp [sweepInit]) hsplit.1
  have hvisit := cleanupVisit_not_expired cfg now ofs stPre (files.get ⟨i, hi⟩)
    hallow hnexp geo rel hsp
  have hrun : cleanupRun cfg now ofs files m =
      (files.drop (i + 1)).foldl (cleanupVisit cfg now ofs)
        (cleanupVisit cfg now ofs stPre (files.get ⟨i, hi⟩)) := by
    unfold cleanupRun
    conv_lhs => rw [hdecomp]
    rw [List.foldl_append]
    rfl
  have hremoved : cleanupVisit cfg now ofs stPre (files.get ⟨i, hi⟩) =
      sweepRemove stPre p sz →
      p ∈ (cleanupRun cfg now ofs files m).removed := by
    intro hvis2
    rw [hrun, hvis2]
    have h1 : p ∈ (sweepRemove stPre p sz).removed := List.mem_cons_self _ _
    have h2 : memAbsent (sweepRemove stPre p sz).memory p := by
      intro mc hmc
      unfold sweepRemove at hmc
      cases hm2 : stPre.memory with
      | none => rw [hm2] at hmc; exact absurd hmc (by simp)
      | some mc0 =>
        rw [hm2] at hmc
        simp only [Option.map_some] at hmc
        rw [← Option.some_inj.mp hmc]
        exact memFind_memRemove mc0 p
    have h3 : hotAbsent (sweepRemove stPre p sz).hot p := by
      intro h0 hh0
      unfold sweepRemove at hh0
      cases hh2 : stPre.hot with
      | none => rw [hh2] at hh0; exact absurd hh0 (by simp)
      | some hx =>
        rw [hh2] at hh0
        simp only [Option.map_some] at hh0
        rw [← Option.some_inj.mp hh0]
        exact hotFind_hotRemove_self hx p
    exact (cleanupFold_preserves cfg now ofs _ _ p h1 h2 h3).1
  refine ⟨?_, ?_, ?_⟩
  · intro hlo
    refine hremoved ?_
    rw [hvisit, hlo]
  · intro fb hprim htrim hfb hmt
    have hlo : lookupOriginalInfo ofs cfg.baseDir rel = some fb := by
      unfold lookupOriginalInfo
      rw [hprim]
      dsimp only
      rw [if_neg htrim, hfb]
    have hvis2 : cleanupVisit cfg now ofs stPre (files.get ⟨i, hi⟩) = stPre := by
      rw [hvisit, hlo]
      dsimp only
      rw [if_neg (by omega)]
    rw [hrun, hvis2]
    exact cleanupFold_not_removed cfg now ofs _ _ p hpre_not hsplit.2
  · intro orig hlo hmt
    refine hremoved ?_
    rw [hvisit, hlo]
    dsimp only
    rw [if_pos (by omega)]

/-- Witness for C8: a fresh cache file whose original vanished is removed
as an orphan. -/
theorem claim_C8_witness :
    "/cache/2x2/gone.png" ∈
      (cleanupRun cfgTTL 100 [] [("/cache/2x2/gone.png", ⟨[1], 50⟩)] ⟨none, none⟩).removed :=
  (claim_C8_orphan_sweep cfgTTL 100 [] [("/cache/2x2/gone.png", ⟨[1], 50⟩)] ⟨none, none⟩
      0 (by decide) (by simp) (by decide) (by decide) "2x2" "gone.png" (by decide)).1 rfl

end FARS
